import Mathlib

/-!
Shallow embedding of the title-cache and title-sanitisation core of the
calendar-for-daily-notes plugin (`src/ollama/cache.ts`, `src/ollama/title.ts`
and the list-item color-tag sanitiser), together with proofs settling the
frozen claims about it.

JavaScript numbers are modelled by `JSNum` (finite values as rationals, plus
NaN and the two infinities); untrusted JavaScript values reaching the
sanitisers are modelled by the inductive `JVal`; strings that are processed
character by character are modelled as `List Char`.
-/

namespace CalendarDailyNotes

/-- Model of a JavaScript number: NaN, an infinity, or a finite value.
Finite doubles are rationals, and the sign of a difference of two finite
doubles agrees with the rational sign, so ordering, subtraction-based
comparators and comparisons against `0` in the source are faithfully
mirrored on `ℚ`. -/
inductive JSNum where
  | nan : JSNum
  | posInf : JSNum
  | negInf : JSNum
  | fin : ℚ → JSNum
deriving DecidableEq, Repr

/-- `Number.isFinite`. -/
def JSNum.isFinite : JSNum → Bool
  | .fin _ => true
  | _ => false

/-- Truthiness of a JavaScript number: `!n` holds exactly for `0`, `-0`
and `NaN`. -/
def JSNum.truthy : JSNum → Bool
  | .nan => false
  | .fin q => decide (q ≠ 0)
  | _ => true

/-- `n <= 0` (false for NaN, as for every NaN comparison). -/
def JSNum.leZero : JSNum → Bool
  | .nan => false
  | .negInf => true
  | .posInf => false
  | .fin q => decide (q ≤ 0)

/-- `n < 0` (false for NaN). -/
def JSNum.ltZero : JSNum → Bool
  | .nan => false
  | .negInf => true
  | .posInf => false
  | .fin q => decide (q < 0)

/-- The JavaScript whitespace class: the characters matched by `\s` in a
regular expression, which is also the character set removed by
`String.prototype.trim`. -/
def isJsSpace (c : Char) : Bool :=
  c.toNat == 0x20 || c.toNat == 0x09 || c.toNat == 0x0A || c.toNat == 0x0D ||
  c.toNat == 0x0B || c.toNat == 0x0C || c.toNat == 0xA0 || c.toNat == 0x1680 ||
  (0x2000 ≤ c.toNat && c.toNat ≤ 0x200A) || c.toNat == 0x2028 ||
  c.toNat == 0x2029 || c.toNat == 0x202F || c.toNat == 0x205F ||
  c.toNat == 0x3000 || c.toNat == 0xFEFF

/-- The class `[\r\n\t]`. -/
def isCrlfTab (c : Char) : Bool :=
  c == '\r' || c == '\n' || c == '\t'

/-- Drop the longest suffix all of whose characters satisfy `p`. -/
def dropTrailing (p : Char → Bool) (l : List Char) : List Char :=
  (l.reverse.dropWhile p).reverse

/-- JavaScript `String.prototype.trim`. -/
def jsTrim (l : List Char) : List Char :=
  dropTrailing isJsSpace (l.dropWhile isJsSpace)

/-- `replace(/X+/g, " ")` for a character class `p`: every maximal run of
characters of the class becomes a single space. -/
def collapseRuns (p : Char → Bool) : List Char → List Char
  | [] => []
  | [c] => if p c then [' '] else [c]
  | c₁ :: c₂ :: rest =>
    if p c₁ && p c₂ then collapseRuns p (c₂ :: rest)
    else (if p c₁ then ' ' else c₁) :: collapseRuns p (c₂ :: rest)

/-- `text.split(/\r?\n/)`: a line break is `\n` optionally preceded by
`\r`; a lone `\r` is ordinary content. -/
def splitLines : List Char → List (List Char)
  | [] => [[]]
  | '\r' :: '\n' :: rest => [] :: splitLines rest
  | '\n' :: rest => [] :: splitLines rest
  | c :: rest =>
    match splitLines rest with
    | [] => [[c]]
    | l :: ls => (c :: l) :: ls

/-- Model of an untrusted JavaScript value (the `unknown` inputs of the
sanitisers). -/
inductive JVal where
  | vundef : JVal
  | vnull : JVal
  | vbool : Bool → JVal
  | vnum : JSNum → JVal
  | vstr : String → JVal
  | vobj : List (String × JVal) → JVal
  | varr : List JVal → JVal

/-- JavaScript truthiness. -/
def JVal.truthy : JVal → Bool
  | JVal.vundef => false
  | .vnull => false
  | .vbool b => b
  | .vnum n => n.truthy
  | .vstr s => decide (s ≠ "")
  | .vobj _ => true
  | .varr _ => true

/-- `typeof v === "object"` (true for `null`, plain objects and arrays). -/
def JVal.isObjectType : JVal → Bool
  | .vnull => true
  | .vobj _ => true
  | .varr _ => true
  | _ => false

/-- JavaScript property assignment on an ordered field list: an existing
key keeps its position and receives the new value, a new key is appended. -/
def setField (fs : List (String × JVal)) (k : String) (v : JVal) :
    List (String × JVal) :=
  if k ∈ fs.map Prod.fst then
    fs.map (fun kv => if kv.1 = k then (k, v) else kv)
  else fs ++ [(k, v)]

/-- Normalises a field list to the unique-key form a real JavaScript object
has: the first occurrence of a key fixes its position, the last assignment
fixes its value. -/
def dedupFields (fs : List (String × JVal)) : List (String × JVal) :=
  fs.foldl (fun acc kv => setField acc kv.1 kv.2) []

/-- `Object.entries`. Plain objects enumerate their unique string keys in
insertion order; arrays enumerate index/element pairs. (The claims settled
below never depend on the integer-like-key reordering a real engine also
performs on plain objects.) -/
def JVal.entries : JVal → List (String × JVal)
  | .vobj fs => dedupFields fs
  | .varr xs => xs.enum.map (fun p => (toString p.1, p.2))
  | _ => []

/-- Property read `v[k]`; a missing property reads as `undefined`. -/
def JVal.getField (v : JVal) (k : String) : JVal :=
  match v.entries.find? (fun kv => decide (kv.1 = k)) with
  | some kv => kv.2
  | none => JVal.vundef

/-! ## The title cache (`src/ollama/cache.ts`) -/

/-- `OllamaTitleCacheEntry`. -/
structure OllamaTitleCacheEntry where
  mtime : JSNum
  title : String
  lastUsed : Option JSNum
deriving DecidableEq, Repr

/-- `OllamaTitleCache`, modelled as the ordered key/value list of the
underlying JavaScript object. Keys are unique in any list denoting a real
object; theorems assume that explicitly where it matters. -/
abbrev OllamaTitleCache := List (String × OllamaTitleCacheEntry)

/-- `cache[k]` (as an `Option`). -/
def cacheGet? (c : OllamaTitleCache) (k : String) : Option OllamaTitleCacheEntry :=
  (c.find? (fun kv => decide (kv.1 = k))).map Prod.snd

/-- `{...cache, [k]: e}` and `out[k] = e`: overwrite in place, or append a
new key. -/
def cacheSet (c : OllamaTitleCache) (k : String) (e : OllamaTitleCacheEntry) :
    OllamaTitleCache :=
  if k ∈ c.map Prod.fst then
    c.map (fun kv => if kv.1 = k then (k, e) else kv)
  else c ++ [(k, e)]

/-- The `mtime` a raw entry sanitises to before the finiteness check:
`typeof entry.mtime === "number" ? entry.mtime : NaN`. -/
def mtimeOf (raw : JVal) : JSNum :=
  match raw.getField "mtime" with
  | .vnum n => n
  | _ => JSNum.nan

/-- The `lastUsed` a raw entry carries through: kept only when it is a
finite number, otherwise dropped (`undefined`). -/
def lastUsedOf (raw : JVal) : Option JSNum :=
  match raw.getField "lastUsed" with
  | .vnum (JSNum.fin q) => some (JSNum.fin q)
  | _ => none

/-- The per-entry validation of `sanitizeOllamaTitleCache` (the body of its
`for` loop): reject non-object values, non-string or blank titles and
non-finite or negative mtimes; carry `lastUsed` through only when it is a
finite number. -/
def sanitizeCacheEntry (raw : JVal) : Option OllamaTitleCacheEntry :=
  if !(raw.truthy && raw.isObjectType) then none
  else
    match raw.getField "title" with
    | .vstr t =>
      if jsTrim t.data = [] then none
      else if !(mtimeOf raw).isFinite || (mtimeOf raw).ltZero then none
      else some ⟨mtimeOf raw, t, lastUsedOf raw⟩
    | _ => none

/-- `sanitizeOllamaTitleCache`. -/
def sanitizeOllamaTitleCache (value : JVal) : OllamaTitleCache :=
  if !(value.truthy && value.isObjectType) then []
  else
    value.entries.foldl
      (fun out kv =>
        match sanitizeCacheEntry kv.2 with
        | some e => cacheSet out kv.1 e
        | none => out)
      []

/-- Effective eviction timestamp of `prune`: `lastUsed` when it is a finite
number, `0` otherwise. -/
def effLastUsed : Option OllamaTitleCacheEntry → ℚ
  | some en =>
    match en.lastUsed with
    | some (JSNum.fin q) => q
    | _ => 0
  | none => 0

/-- Insert a keyed timestamp after every existing element whose timestamp
is `≤` its own; this makes the sort below stable, matching the stable
`Array.prototype.sort`. -/
def insertByTime (x : String × ℚ) : List (String × ℚ) → List (String × ℚ)
  | [] => [x]
  | y :: ys => if y.2 ≤ x.2 then y :: insertByTime x ys else x :: y :: ys

/-- Stable ascending sort by timestamp:
`sortable.sort((a, b) => a.lastUsed - b.lastUsed)`. -/
def sortByTime (l : List (String × ℚ)) : List (String × ℚ) :=
  l.foldl (fun acc x => insertByTime x acc) []

/-- `keys.length <= max` for a JavaScript number `max`. -/
def natLeNum (n : Nat) (m : JSNum) : Bool :=
  match m with
  | .fin q => decide ((n : ℚ) ≤ q)
  | .posInf => true
  | _ => false

/-- Number of elements taken by `slice(0, Math.max(0, len - max))` (the
slice bound is truncated toward zero; it is only consulted when
`0 < max < len`, where truncation towards zero is the floor). The value is
`⌊len - max⌋` clipped to `ℕ`, computed on numerator/denominator so that it
kernel-evaluates (`Rat` subtraction is irreducible); the lemma
`deleteCount_eq_floor` below states the intended reading. -/
def deleteCount (len : Nat) (m : JSNum) : Nat :=
  match m with
  | .fin q => (((len : ℤ) * (q.den : ℤ) - q.num) / (q.den : ℤ)).toNat
  | _ => 0

/-- The `sorted` list of `pruneOllamaTitleCache`: the keys paired with
their effective timestamps, stably sorted ascending. -/
def pruneSorted (cache : OllamaTitleCache) : List (String × ℚ) :=
  sortByTime ((cache.map Prod.fst).map
    (fun k => (k, effLastUsed (cacheGet? cache k))))

/-- The `toDelete` list of `pruneOllamaTitleCache`. -/
def pruneToDelete (cache : OllamaTitleCache) (m : JSNum) : List (String × ℚ) :=
  (pruneSorted cache).take (deleteCount (cache.map Prod.fst).length m)

/-- `pruneOllamaTitleCache`. -/
def pruneOllamaTitleCache (cache : OllamaTitleCache) (maxEntries : Option JSNum) :
    OllamaTitleCache :=
  match maxEntries with
  | none => cache
  | some m =>
    if !m.truthy || m.leZero then cache
    else if natLeNum (cache.map Prod.fst).length m then cache
    else if (pruneToDelete cache m).length = 0 then cache
    else cache.filter (fun kv => decide (kv.1 ∉ (pruneToDelete cache m).map Prod.fst))

/-- `upsertOllamaTitleCacheEntry`. The `nowMs ?? Date.now()` default is a
host-clock read; the model takes the timestamp as an argument, which is how
every claim exercises the operation. -/
def upsertOllamaTitleCacheEntry (cache : OllamaTitleCache) (filePath : String)
    (mtime : JSNum) (title : String) (maxEntries : Option JSNum) (now : JSNum) :
    OllamaTitleCache :=
  pruneOllamaTitleCache (cacheSet cache filePath ⟨mtime, title, some now⟩) maxEntries

/-! ## Title parsing (`src/ollama/title.ts`) -/

/-- The YAML frontmatter fence marker. -/
def fenceLine : List Char := ['-', '-', '-']

/-- The scan of `stripYamlFrontmatter` from index 1 on: find the first line
that trims to the fence marker and return the lines strictly after it. -/
def linesAfterFence : List (List Char) → Option (List (List Char))
  | [] => none
  | l :: rest => if jsTrim l = fenceLine then some rest else linesAfterFence rest

/-- `stripYamlFrontmatter`. -/
def stripYamlFrontmatter (text : List Char) : List Char :=
  if text = [] then []
  else
    match splitLines text with
    | [] => text
    | l₀ :: rest =>
      if (l₀ :: rest).length < 3 ∨ jsTrim l₀ ≠ fenceLine then text
      else
        match linesAfterFence rest with
        | some tail => List.intercalate ['\n'] tail
        | none => text

/-- `sanitizeWord`, parametric in the character class `[\p{L}\p{N}]` (the
Unicode letter/number test `isLN`): collapse `[\r\n\t]` runs to spaces,
trim, strip the leading and the trailing run of characters outside the
class, collapse whitespace runs, then keep only the first
space-delimited segment. -/
def sanitizeWordCleaned (isLN : Char → Bool) (word : List Char) : List Char :=
  collapseRuns isJsSpace
    (dropTrailing (fun c => !(isLN c))
      ((jsTrim (collapseRuns isCrlfTab word)).dropWhile (fun c => !(isLN c))))

def sanitizeWord (isLN : Char → Bool) (word : List Char) : List Char :=
  (sanitizeWordCleaned isLN word).takeWhile (fun c => c != ' ')

/-- The class `[.!?]`. -/
def isTermPunct (c : Char) : Bool :=
  c == '.' || c == '!' || c == '?'

/-- `replace(/[.!?]{2,}$/g, ".")`: a trailing run of two or more terminal
punctuation marks collapses to a single period. -/
def collapseTrailingPunct (l : List Char) : List Char :=
  if 2 ≤ (l.reverse.takeWhile isTermPunct).length then
    dropTrailing isTermPunct l ++ ['.']
  else l

/-- The description length cap (`MAX`). -/
def descriptionMax : Nat := 120

/-- The description after newline/tab replacement, trimming and
whitespace collapsing (the value of `s` after the first two statements of
`sanitizeDescription`). -/
def descCollapsed (desc : List Char) : List Char :=
  collapseRuns isJsSpace (jsTrim (collapseRuns isCrlfTab desc))

/-- The description after the length cap (`slice` to `MAX` plus trim,
applied only when too long). -/
def descCapped (desc : List Char) : List Char :=
  if descriptionMax < (descCollapsed desc).length
  then jsTrim ((descCollapsed desc).take descriptionMax)
  else descCollapsed desc

/-- `sanitizeDescription`. -/
def sanitizeDescription (desc : List Char) : List Char :=
  collapseTrailingPunct (descCapped desc)

/-- `DailyTitleParts`. -/
structure DailyTitleParts where
  keywords : List (List Char)
  description : List Char
deriving DecidableEq, Repr

/-- The `words` list of `parseDailyTitleParts`: each keyword mapped
through `sanitizeWord` (non-strings to `""`), empty results dropped,
source order kept. -/
def survivingKeywords (isLN : Char → Bool) (ks : List JVal) : List (List Char) :=
  (ks.map (fun k =>
    match k with
    | JVal.vstr s => sanitizeWord isLN s.data
    | _ => ([] : List Char))).filter (fun w => decide (w ≠ []))

/-- `parseDailyTitleParts`, parametric in the `[\p{L}\p{N}]` class used by
`sanitizeWord`. -/
def parseDailyTitleParts (isLN : Char → Bool) (value : JVal) :
    Option DailyTitleParts :=
  if !(value.truthy && value.isObjectType) then none
  else
    match value.getField "keywords", value.getField "description" with
    | .varr rawKeywords, .vstr rawDescription =>
      if (survivingKeywords isLN rawKeywords).length < 3 then none
      else if sanitizeDescription rawDescription.data = [] then none
      else some ⟨(survivingKeywords isLN rawKeywords).take 3,
        sanitizeDescription rawDescription.data⟩
    | _, _ => none

/-! ## List-item color tags -/

/-- `[0-9]`. -/
def isAsciiDigit (c : Char) : Bool :=
  decide ('0' ≤ c ∧ c ≤ '9')

/-- `[0-9a-fA-F]`. -/
def isHexDigit (c : Char) : Bool :=
  isAsciiDigit c || decide ('a' ≤ c ∧ c ≤ 'f') || decide ('A' ≤ c ∧ c ≤ 'F')

/-- `/^day:\d{4}-\d{2}-\d{2}$/`. -/
def matchesDayKey (l : List Char) : Bool :=
  match l with
  | 'd' :: 'a' :: 'y' :: ':' ::
      y₁ :: y₂ :: y₃ :: y₄ :: '-' :: m₁ :: m₂ :: '-' :: d₁ :: d₂ :: [] =>
    isAsciiDigit y₁ && isAsciiDigit y₂ && isAsciiDigit y₃ && isAsciiDigit y₄ &&
    isAsciiDigit m₁ && isAsciiDigit m₂ && isAsciiDigit d₁ && isAsciiDigit d₂
  | _ => false

/-- What `.` matches in a regular expression without the `s` flag:
anything but a line terminator. -/
def isRegexDot (c : Char) : Bool :=
  !(c == '\n' || c == '\r' || c.toNat == 0x2028 || c.toNat == 0x2029)

/-- `/^file:.+$/`. -/
def matchesFileKey (l : List Char) : Bool :=
  match l with
  | 'f' :: 'i' :: 'l' :: 'e' :: ':' :: rest => !rest.isEmpty && rest.all isRegexDot
  | _ => false

/-- `/^#(?:[0-9a-fA-F]{3}|[0-9a-fA-F]{6})$/`. -/
def matchesHexColor (l : List Char) : Bool :=
  match l with
  | '#' :: rest => (rest.length == 3 || rest.length == 6) && rest.all isHexDigit
  | _ => false

/-- Lowercasing as `toLowerCase` applies it to a validated hex color: every
character is `#`, a digit or an ASCII hex letter, on which Unicode and
ASCII lowercasing agree. -/
def asciiLower (c : Char) : Char :=
  if decide ('A' ≤ c ∧ c ≤ 'Z') then Char.ofNat (c.toNat + 32) else c

/-- `expandHex3ToHex6` (callers validate the shape). -/
def expandHex3ToHex6 (hex3 : List Char) : List Char :=
  match hex3 with
  | '#' :: r :: g :: b :: [] => ['#', r, r, g, g, b, b]
  | _ => hex3

/-- `normalizeListItemColor`. -/
def normalizeListItemColor (input : List Char) : List Char :=
  let s := jsTrim input
  if !matchesHexColor s then []
  else (if s.length == 4 then expandHex3ToHex6 s else s).map asciiLower

/-- `ListItemColorTags`, as an ordered key/value list. -/
abbrev ListItemColorTags := List (String × String)

/-- `out[k]` on the tag map. -/
def tagsGet? : ListItemColorTags → String → Option String
  | [], _ => none
  | kv :: t, k => if kv.1 = k then some kv.2 else tagsGet? t k

/-- `out[k] = v` on the tag map. -/
def tagsSet (t : ListItemColorTags) (k v : String) : ListItemColorTags :=
  if k ∈ t.map Prod.fst then
    t.map (fun kv => if kv.1 = k then (k, v) else kv)
  else t ++ [(k, v)]

/-- The body of the `for (const [rawKey, rawVal] of Object.entries(obj))`
loop of `sanitizeListItemColorTags`: trim the key, validate it against the
two grammars, validate the value as a color, store under the trimmed key. -/
def colorTagStep (out : ListItemColorTags) (kv : String × JVal) : ListItemColorTags :=
  if String.mk (jsTrim kv.1.data) = "" then out
  else if !(matchesDayKey (jsTrim kv.1.data) || matchesFileKey (jsTrim kv.1.data)) then out
  else
    match kv.2 with
    | .vstr rawVal =>
      if normalizeListItemColor rawVal.data = [] then out
      else tagsSet out (String.mk (jsTrim kv.1.data))
        (String.mk (normalizeListItemColor rawVal.data))
    | _ => out

/-- `sanitizeListItemColorTags`. -/
def sanitizeListItemColorTags (value : JVal) : ListItemColorTags :=
  if !(value.truthy && value.isObjectType) then []
  else value.entries.foldl colorTagStep []

/-! ## Helper definitions used by the theorems -/

/-- The eviction score of a cache entry (its pair in `sortable`). -/
def effOf (e : OllamaTitleCacheEntry) : ℚ :=
  effLastUsed (some e)

/-! ## Lemmas about the stable sort -/

def entryA : OllamaTitleCacheEntry := ⟨JSNum.fin 1, "A", some (JSNum.fin 10)⟩

def entryB : OllamaTitleCacheEntry := ⟨JSNum.fin 1, "B", some (JSNum.fin 20)⟩

def sampleCache : OllamaTitleCache := [("a", entryA), ("b", entryB)]

def c2cache : OllamaTitleCache :=
  [("a", ⟨JSNum.fin 1, "t", some (JSNum.fin (-1))⟩),
   ("b", ⟨JSNum.fin 1, "t", none⟩)]

def c2cache3 : OllamaTitleCache :=
  [("a", ⟨JSNum.fin 1, "t", none⟩),
   ("b", ⟨JSNum.fin 1, "t", some (JSNum.fin 5)⟩),
   ("c", ⟨JSNum.fin 1, "t", some (JSNum.fin 10)⟩)]

/-- The validation every sanitised entry has passed: non-blank title,
finite non-negative `mtime`, and `lastUsed` either absent or a finite
number. -/
def ValidEntry (e : OllamaTitleCacheEntry) : Prop :=
  jsTrim e.title.data ≠ [] ∧
  e.mtime.isFinite = true ∧
  e.mtime.ltZero = false ∧
  (e.lastUsed = none ∨ ∃ q : ℚ, e.lastUsed = some (JSNum.fin q))

/-- The object-literal view of a sanitised entry (`{mtime, title,
lastUsed}`; an absent `lastUsed` is the property holding `undefined`,
exactly as in the source's object literal). -/
def entryToJVal (e : OllamaTitleCacheEntry) : JVal :=
  .vobj [("mtime", .vnum e.mtime), ("title", .vstr e.title),
    ("lastUsed", match e.lastUsed with
      | some n => .vnum n
      | none => JVal.vundef)]

/-- The plain-map view of a sanitised cache. -/
def cacheToJVal (c : OllamaTitleCache) : JVal :=
  .vobj (c.map (fun kv => (kv.1, entryToJVal kv.2)))

def c5raw : JVal :=
  .vobj [("", .vobj [("title", .vstr "t"), ("mtime", .vnum (JSNum.fin 0))])]

def c5wraw : JVal :=
  .vobj [("ok", .vobj [("mtime", .vnum (JSNum.fin 123)), ("title", .vstr "Hello")])]

/-- The ASCII restriction of the `[\p{L}\p{N}]` class. -/
def asciiLN (c : Char) : Bool :=
  c.isAlpha || isAsciiDigit c

/-- Concrete parse input for the C8 sanity check. -/
def w8value : JVal :=
  JVal.vobj [("keywords",
      JVal.varr [JVal.vstr "work", JVal.vstr "deep", JVal.vstr "plan"]),
    ("description", JVal.vstr "ok")]

/-- Its parse result. -/
def w8parts : DailyTitleParts :=
  ⟨["work".data, "deep".data, "plan".data], "ok".data⟩

/-- The conditions under which a raw entry writes the tag `key`. -/
def HitsKey (kv : String × JVal) (key : String) : Prop :=
  String.mk (jsTrim kv.1.data) = key ∧
  (matchesDayKey (jsTrim kv.1.data) || matchesFileKey (jsTrim kv.1.data)) = true ∧
  ∃ rv : String, kv.2 = JVal.vstr rv ∧ normalizeListItemColor rv.data ≠ []

open List in
theorem insertByTime_perm (x : String × ℚ) (l : List (String × ℚ)) :
    insertByTime x l ~ x :: l := by
  induction l with
  | nil => simp [insertByTime]
  | cons y ys ih =>
    unfold insertByTime
    split
    · exact (ih.cons y).trans (List.Perm.swap x y ys)
    · exact List.Perm.refl _

open List in
theorem sortByTime_aux_perm (l : List (String × ℚ)) :
    ∀ acc, l.foldl (fun acc x => insertByTime x acc) acc ~ acc ++ l := by
  induction l with
  | nil => intro acc; simp
  | cons x xs ih =>
    intro acc
    calc (x :: xs).foldl (fun acc x => insertByTime x acc) acc
        = xs.foldl (fun acc x => insertByTime x acc) (insertByTime x acc) := rfl
      _ ~ insertByTime x acc ++ xs := ih _
      _ ~ (x :: acc) ++ xs := ((insertByTime_perm x acc).append_right xs)
      _ ~ acc ++ x :: xs := List.perm_middle.symm

open List in
theorem sortByTime_perm (l : List (String × ℚ)) : sortByTime l ~ l :=
  (sortByTime_aux_perm l []).trans (by simp)

theorem insertByTime_pairwise (x : String × ℚ) (l : List (String × ℚ))
    (h : l.Pairwise (fun a b => a.2 ≤ b.2)) :
    (insertByTime x l).Pairwise (fun a b => a.2 ≤ b.2) := by
  induction l with
  | nil => simp [insertByTime]
  | cons y ys ih =>
    rcases List.pairwise_cons.mp h with ⟨hy, hys⟩
    unfold insertByTime
    split
    · rename_i hle
      refine List.pairwise_cons.mpr ⟨?_, ih hys⟩
      intro z hz
      rcases List.mem_cons.mp ((insertByTime_perm x ys).mem_iff.mp hz) with hz | hz
      · exact hz ▸ hle
      · exact hy z hz
    · rename_i hlt
      refine List.pairwise_cons.mpr ⟨?_, h⟩
      intro z hz
      rcases List.mem_cons.mp hz with hz | hz
      · exact hz ▸ le_of_lt (not_le.mp hlt)
      · exact le_trans (le_of_lt (not_le.mp hlt)) (hy z hz)

theorem sortByTime_pairwise (l : List (String × ℚ)) :
    (sortByTime l).Pairwise (fun a b => a.2 ≤ b.2) := by
  suffices h : ∀ acc, acc.Pairwise (fun a b => a.2 ≤ b.2) →
      (l.foldl (fun acc x => insertByTime x acc) acc).Pairwise (fun a b => a.2 ≤ b.2) by
    exact h [] (by simp)
  induction l with
  | nil => intro acc hacc; exact hacc
  | cons x xs ih => intro acc hacc; exact ih _ (insertByTime_pairwise x acc hacc)

/-! ## Lemmas about association lists with unique keys -/

theorem eq_of_fst_eq_of_nodup {α : Type _} {p q : String × α} {l : List (String × α)}
    (hnd : (l.map Prod.fst).Nodup) (hp : p ∈ l) (hq : q ∈ l) (h : p.1 = q.1) :
    p = q := by
  induction l with
  | nil => cases hp
  | cons r rest ih =>
    rw [List.map_cons, List.nodup_cons] at hnd
    rcases List.mem_cons.mp hp with hp | hp <;> rcases List.mem_cons.mp hq with hq | hq
    · exact hp.trans hq.symm
    · exfalso; apply hnd.1; rw [← hp, h]; exact List.mem_map_of_mem Prod.fst hq
    · exfalso; apply hnd.1; rw [← hq, ← h]; exact List.mem_map_of_mem Prod.fst hp
    · exact ih hnd.2 hp hq

theorem cacheGet?_of_mem {cache : OllamaTitleCache} {kv : String × OllamaTitleCacheEntry}
    (hnd : (cache.map Prod.fst).Nodup) (h : kv ∈ cache) :
    cacheGet? cache kv.1 = some kv.2 := by
  induction cache with
  | nil => cases h
  | cons r rest ih =>
    rw [List.map_cons, List.nodup_cons] at hnd
    rcases List.mem_cons.mp h with h | h
    · subst h
      unfold cacheGet?
      rw [List.find?_cons_of_pos _ (by simp)]
      rfl
    · have hne : r.1 ≠ kv.1 := by
        intro he
        exact hnd.1 (he ▸ List.mem_map_of_mem Prod.fst h)
      have hrec := ih hnd.2 h
      unfold cacheGet? at hrec ⊢
      rw [List.find?_cons_of_neg _ (by simp [hne])]
      exact hrec

theorem length_filter_not_mem (c : OllamaTitleCache) (S : List String)
    (hc : (c.map Prod.fst).Nodup) (hS : S.Nodup)
    (hsub : ∀ s ∈ S, s ∈ c.map Prod.fst) :
    (c.filter (fun kv => decide (kv.1 ∉ S))).length = c.length - S.length := by
  induction c generalizing S with
  | nil =>
    have : S = [] :=
      List.eq_nil_iff_forall_not_mem.mpr (fun s hs => by simpa using hsub s hs)
    simp [this]
  | cons kv rest ih =>
    rw [List.map_cons, List.nodup_cons] at hc
    by_cases hmem : kv.1 ∈ S
    · have hSlen : 1 ≤ S.length := List.length_pos.mpr (fun h => by simp [h] at hmem)
      have hfilter :
          rest.filter (fun kv' => decide (kv'.1 ∉ S)) =
            rest.filter (fun kv' => decide (kv'.1 ∉ S.erase kv.1)) := by
        apply List.filter_congr
        intro a ha
        have hane : a.1 ≠ kv.1 := by
          intro he
          exact hc.1 (he ▸ List.mem_map_of_mem Prod.fst ha)
        simp [List.mem_erase_of_ne hane]
      have hsub' : ∀ s ∈ S.erase kv.1, s ∈ rest.map Prod.fst := by
        intro s hs
        rcases (hS.mem_erase_iff).mp hs with ⟨hne, hsS⟩
        rcases List.mem_cons.mp (hsub s hsS) with h | h
        · exact absurd h hne
        · exact h
      have hlen' : (S.erase kv.1).length ≤ rest.length := by
        have := ((hS.erase kv.1).subperm hsub').length_le
        simpa using this
      have hrec := ih (S.erase kv.1) hc.2 (hS.erase kv.1) hsub'
      simp only [List.filter_cons, decide_eq_true_eq]
      rw [if_neg (by simp [hmem]), hfilter, hrec, List.length_erase_of_mem hmem]
      simp only [List.length_cons]
      omega
    · have hsub' : ∀ s ∈ S, s ∈ rest.map Prod.fst := by
        intro s hs
        rcases List.mem_cons.mp (hsub s hs) with h | h
        · exact absurd (h ▸ hs) hmem
        · exact h
      have hlen' : S.length ≤ rest.length := by
        have := (hS.subperm hsub').length_le
        simpa using this
      have hrec := ih S hc.2 hS hsub'
      simp only [List.filter_cons, decide_eq_true_eq]
      rw [if_pos (by simp [hmem]), List.length_cons, hrec]
      simp only [List.length_cons]
      omega

/-! ## Structure of `pruneOllamaTitleCache` -/

theorem sortable_eq {cache : OllamaTitleCache} (hnd : (cache.map Prod.fst).Nodup) :
    (cache.map Prod.fst).map (fun k => (k, effLastUsed (cacheGet? cache k))) =
      cache.map (fun kv => (kv.1, effOf kv.2)) := by
  rw [List.map_map]
  apply List.map_congr_left
  intro kv hkv
  simp only [Function.comp_apply, cacheGet?_of_mem hnd hkv, effOf]

open List in
theorem pruneSorted_perm {cache : OllamaTitleCache} (hnd : (cache.map Prod.fst).Nodup) :
    pruneSorted cache ~ cache.map (fun kv => (kv.1, effOf kv.2)) := by
  unfold pruneSorted
  rw [sortable_eq hnd]
  exact sortByTime_perm _

open List in
theorem pruneSorted_keys_perm {cache : OllamaTitleCache}
    (hnd : (cache.map Prod.fst).Nodup) :
    (pruneSorted cache).map Prod.fst ~ cache.map Prod.fst := by
  have h := (pruneSorted_perm hnd).map Prod.fst
  rw [List.map_map] at h
  exact h

theorem pruneSorted_length {cache : OllamaTitleCache}
    (hnd : (cache.map Prod.fst).Nodup) :
    (pruneSorted cache).length = cache.length := by
  rw [(pruneSorted_perm hnd).length_eq, List.length_map]

theorem pruneSorted_keys_nodup {cache : OllamaTitleCache}
    (hnd : (cache.map Prod.fst).Nodup) :
    ((pruneSorted cache).map Prod.fst).Nodup :=
  ((pruneSorted_keys_perm hnd).nodup_iff).mpr hnd

theorem pruneSorted_pairwise (cache : OllamaTitleCache) :
    (pruneSorted cache).Pairwise (fun a b => a.2 ≤ b.2) :=
  sortByTime_pairwise _

theorem deleteCount_eq_floor (len : Nat) (q : ℚ) :
    deleteCount len (JSNum.fin q) = (⌊(len : ℚ) - q⌋).toNat := by
  show (((len : ℤ) * (q.den : ℤ) - q.num) / (q.den : ℤ)).toNat = _
  congr 1
  have hden : ((q.den : ℚ)) ≠ 0 := Nat.cast_ne_zero.mpr q.den_nz
  have key : (q.num : ℚ) = q * (q.den : ℚ) := by
    have h := Rat.num_div_den q
    rw [div_eq_iff hden] at h
    exact h
  have hrepr : (len : ℚ) - q =
      ((((len : ℤ) * (q.den : ℤ) - q.num : ℤ)) : ℚ) / ((q.den : ℕ) : ℚ) := by
    rw [eq_div_iff hden]
    push_cast
    rw [key]
    ring
  rw [hrepr, Rat.floor_intCast_div_natCast]

theorem deleteCount_coe (len m : ℕ) :
    deleteCount len (JSNum.fin (m : ℚ)) = len - m := by
  rw [deleteCount_eq_floor,
    show ((len : ℚ) - (m : ℚ)) = (((len : ℤ) - (m : ℤ) : ℤ) : ℚ) by push_cast; ring,
    Int.floor_intCast]
  omega

theorem pruneToDelete_length {cache : OllamaTitleCache} {m : ℕ}
    (hnd : (cache.map Prod.fst).Nodup) (hlt : m < cache.length) :
    (pruneToDelete cache (JSNum.fin (m : ℚ))).length = cache.length - m := by
  unfold pruneToDelete
  rw [List.length_take, List.length_map, deleteCount_coe, pruneSorted_length hnd]
  omega

theorem pruneToDelete_keys_nodup {cache : OllamaTitleCache} (m : JSNum)
    (hnd : (cache.map Prod.fst).Nodup) :
    ((pruneToDelete cache m).map Prod.fst).Nodup := by
  unfold pruneToDelete
  rw [List.map_take]
  exact (List.take_sublist _ _).nodup (pruneSorted_keys_nodup hnd)

theorem pruneToDelete_keys_subset {cache : OllamaTitleCache} (m : JSNum)
    (hnd : (cache.map Prod.fst).Nodup) :
    ∀ s ∈ (pruneToDelete cache m).map Prod.fst, s ∈ cache.map Prod.fst := by
  intro s hs
  unfold pruneToDelete at hs
  rw [List.map_take] at hs
  exact (pruneSorted_keys_perm hnd).mem_iff.mp (List.take_subset _ _ hs)

theorem prune_none (cache : OllamaTitleCache) :
    pruneOllamaTitleCache cache none = cache := rfl

theorem prune_nonpos (cache : OllamaTitleCache) (q : ℚ) (hq : q ≤ 0) :
    pruneOllamaTitleCache cache (some (JSNum.fin q)) = cache := by
  unfold pruneOllamaTitleCache
  simp [JSNum.leZero, hq]

theorem prune_small (cache : OllamaTitleCache) (q : ℚ)
    (hq : (cache.length : ℚ) ≤ q) :
    pruneOllamaTitleCache cache (some (JSNum.fin q)) = cache := by
  unfold pruneOllamaTitleCache
  by_cases h : (!(JSNum.fin q).truthy || (JSNum.fin q).leZero) = true
  · simp [h]
  · simp [h, natLeNum, List.length_map, hq]

theorem prune_active {cache : OllamaTitleCache} {q : ℚ} (h0 : 0 < q)
    (hlt : q < (cache.length : ℚ))
    (hne : pruneToDelete cache (JSNum.fin q) ≠ []) :
    pruneOllamaTitleCache cache (some (JSNum.fin q)) =
      cache.filter
        (fun kv => decide (kv.1 ∉ (pruneToDelete cache (JSNum.fin q)).map Prod.fst)) := by
  have ht : (!(JSNum.fin q).truthy || (JSNum.fin q).leZero) = false := by
    simp [JSNum.truthy, JSNum.leZero, h0.ne', not_le.mpr h0]
  have hn : natLeNum (cache.map Prod.fst).length (JSNum.fin q) = false := by
    simp [natLeNum, List.length_map]
    exact hlt
  have hlen : ¬ (pruneToDelete cache (JSNum.fin q)).length = 0 := by
    simpa [List.length_eq_zero] using hne
  simp only [pruneOllamaTitleCache, ht, hn, Bool.false_eq_true, if_false]
  rw [if_neg hlen]

theorem prune_subset (cache : OllamaTitleCache) (mE : Option JSNum) :
    ∀ kv ∈ pruneOllamaTitleCache cache mE, kv ∈ cache := by
  intro kv h
  unfold pruneOllamaTitleCache at h
  repeat' split at h
  all_goals first | exact h | exact (List.mem_filter.mp h).1

theorem prune_sublist (cache : OllamaTitleCache) (mE : Option JSNum) :
    List.Sublist (pruneOllamaTitleCache cache mE) cache := by
  unfold pruneOllamaTitleCache
  repeat' split
  all_goals first | exact List.Sublist.refl _ | exact List.filter_sublist _

theorem prune_keys_nodup {cache : OllamaTitleCache} (mE : Option JSNum)
    (hnd : (cache.map Prod.fst).Nodup) :
    ((pruneOllamaTitleCache cache mE).map Prod.fst).Nodup :=
  ((prune_sublist cache mE).map Prod.fst).nodup hnd

theorem prune_empty_toDelete {cache : OllamaTitleCache} {m : JSNum}
    (h : (pruneToDelete cache m).length = 0) :
    pruneOllamaTitleCache cache (some m) = cache := by
  unfold pruneOllamaTitleCache
  repeat' split
  all_goals first | rfl | simp_all

/-- In the active pruning branch, membership in the result is exactly
"my key was not selected for deletion". -/
theorem mem_prune_active {cache : OllamaTitleCache} {q : ℚ} (h0 : 0 < q)
    (hlt : q < (cache.length : ℚ)) (hne : pruneToDelete cache (JSNum.fin q) ≠ [])
    {kv : String × OllamaTitleCacheEntry} (hkv : kv ∈ cache) :
    kv ∈ pruneOllamaTitleCache cache (some (JSNum.fin q)) ↔
      kv.1 ∉ (pruneToDelete cache (JSNum.fin q)).map Prod.fst := by
  rw [prune_active h0 hlt hne]
  simp [List.mem_filter, hkv]

/-- An entry of the cache whose pair lands in `toDelete` is the unique pair
of `pruneSorted` carrying its key. -/
theorem pair_mem_toDelete_of_key {cache : OllamaTitleCache} {m : JSNum}
    (hnd : (cache.map Prod.fst).Nodup) {kv : String × OllamaTitleCacheEntry}
    (hkv : kv ∈ cache)
    (hkey : kv.1 ∈ (pruneToDelete cache m).map Prod.fst) :
    (kv.1, effOf kv.2) ∈ pruneToDelete cache m := by
  rcases List.mem_map.mp hkey with ⟨p, hp, hpk⟩
  have hpair : (kv.1, effOf kv.2) ∈ pruneSorted cache :=
    (pruneSorted_perm hnd).mem_iff.mpr (List.mem_map.mpr ⟨kv, hkv, rfl⟩)
  have hpsorted : p ∈ pruneSorted cache :=
    List.take_subset _ _ hp
  have : p = (kv.1, effOf kv.2) :=
    eq_of_fst_eq_of_nodup (pruneSorted_keys_nodup hnd) hpsorted hpair (by simpa using hpk)
  exact this ▸ hp

/-- Eviction is monotone in the effective timestamp: if an entry with a
strictly larger effective `lastUsed` is evicted, so is the smaller one. -/
theorem evict_mono {cache : OllamaTitleCache}
    (hnd : (cache.map Prod.fst).Nodup) (mE : Option JSNum)
    {a b : String × OllamaTitleCacheEntry} (ha : a ∈ cache) (hb : b ∈ cache)
    (hab : effOf a.2 < effOf b.2)
    (hbev : b ∉ pruneOllamaTitleCache cache mE) :
    a ∉ pruneOllamaTitleCache cache mE := by
  match mE with
  | none => exact absurd hb hbev
  | some JSNum.nan =>
    exact absurd (show b ∈ pruneOllamaTitleCache cache (some JSNum.nan) from by
      unfold pruneOllamaTitleCache; simpa [JSNum.truthy] using hb) hbev
  | some JSNum.negInf =>
    exact absurd (show b ∈ pruneOllamaTitleCache cache (some JSNum.negInf) from by
      unfold pruneOllamaTitleCache; simpa [JSNum.truthy, JSNum.leZero] using hb) hbev
  | some JSNum.posInf =>
    exact absurd (show b ∈ pruneOllamaTitleCache cache (some JSNum.posInf) from by
      unfold pruneOllamaTitleCache
      simpa [JSNum.truthy, JSNum.leZero, natLeNum] using hb) hbev
  | some (JSNum.fin q) =>
    rcases le_or_lt q 0 with hq | hq
    · refine absurd ?_ hbev
      rw [prune_nonpos cache q hq]
      exact hb
    rcases le_or_lt (cache.length : ℚ) q with hql | hql
    · refine absurd ?_ hbev
      rw [prune_small cache q hql]
      exact hb
    by_cases hdel : pruneToDelete cache (JSNum.fin q) = []
    · refine absurd ?_ hbev
      rw [@prune_empty_toDelete cache (JSNum.fin q) (by simp [hdel])]
      exact hb
    · intro haun
      have hbkey : b.1 ∈ (pruneToDelete cache (JSNum.fin q)).map Prod.fst := by
        by_contra hnk
        exact hbev ((mem_prune_active hq hql hdel hb).mpr hnk)
      have hakey : a.1 ∉ (pruneToDelete cache (JSNum.fin q)).map Prod.fst :=
        (mem_prune_active hq hql hdel ha).mp haun
      have hbpair := pair_mem_toDelete_of_key hnd hb hbkey
      have hapair : (a.1, effOf a.2) ∈ pruneSorted cache :=
        (pruneSorted_perm hnd).mem_iff.mpr (List.mem_map.mpr ⟨a, ha, rfl⟩)
      set d := deleteCount (cache.map Prod.fst).length (JSNum.fin q) with hd
      have hadrop : (a.1, effOf a.2) ∈ (pruneSorted cache).drop d := by
        rcases List.mem_append.mp
          ((List.take_append_drop d (pruneSorted cache)).symm ▸ hapair) with h | h
        · exact absurd (List.mem_map.mpr ⟨_, h, rfl⟩) hakey
        · exact h
      have hpw := pruneSorted_pairwise cache
      rw [← List.take_append_drop d (pruneSorted cache)] at hpw
      have hle := (List.pairwise_append.mp hpw).2.2 _ hbpair _ hadrop
      exact absurd hab (not_lt.mpr hle)

/-- An entry whose effective timestamp is strictly greater than that of
every other entry survives every prune. -/
theorem strict_max_survives {cache : OllamaTitleCache}
    (hnd : (cache.map Prod.fst).Nodup) (mE : Option JSNum)
    {kv : String × OllamaTitleCacheEntry} (hkv : kv ∈ cache)
    (hmax : ∀ kv' ∈ cache, kv' ≠ kv → effOf kv'.2 < effOf kv.2) :
    kv ∈ pruneOllamaTitleCache cache mE := by
  match mE with
  | none => exact hkv
  | some JSNum.nan =>
    unfold pruneOllamaTitleCache; simpa [JSNum.truthy] using hkv
  | some JSNum.negInf =>
    unfold pruneOllamaTitleCache; simpa [JSNum.truthy, JSNum.leZero] using hkv
  | some JSNum.posInf =>
    unfold pruneOllamaTitleCache
    simpa [JSNum.truthy, JSNum.leZero, natLeNum] using hkv
  | some (JSNum.fin q) =>
    rcases le_or_lt q 0 with hq | hq
    · rw [prune_nonpos cache q hq]
      exact hkv
    rcases le_or_lt (cache.length : ℚ) q with hql | hql
    · rw [prune_small cache q hql]
      exact hkv
    by_cases hdel : pruneToDelete cache (JSNum.fin q) = []
    · rw [@prune_empty_toDelete cache (JSNum.fin q) (by simp [hdel])]
      exact hkv
    refine (mem_prune_active hq hql hdel hkv).mpr ?_
    intro hkey
    have hpair := pair_mem_toDelete_of_key hnd hkv hkey
    set d := deleteCount (cache.map Prod.fst).length (JSNum.fin q) with hd
    have hdlt : d < (pruneSorted cache).length := by
      rw [pruneSorted_length hnd, hd]
      have h2 : deleteCount (cache.map Prod.fst).length (JSNum.fin q)
          = (⌊(cache.length : ℚ) - q⌋).toNat := by
        rw [deleteCount_eq_floor]
        congr 2
        rw [List.length_map]
      rw [h2]
      have h1 : ⌊(cache.length : ℚ) - q⌋ < (cache.length : ℤ) := by
        rw [Int.floor_lt]
        push_cast
        exact sub_lt_self _ hq
      have h3 : 0 < cache.length := by exact_mod_cast hq.trans hql
      omega
    have hdropne : (pruneSorted cache).drop d ≠ [] := by
      intro h
      have := congrArg List.length h
      rw [List.length_drop] at this
      simp only [List.length_nil] at this
      omega
    obtain ⟨p', hp'⟩ := List.exists_mem_of_ne_nil _ hdropne
    have hp'sorted : p' ∈ pruneSorted cache := List.drop_subset _ _ hp'
    rcases List.mem_map.mp ((pruneSorted_perm hnd).mem_iff.mp hp'sorted)
      with ⟨kv', hkv', hkveq⟩
    have hpw := pruneSorted_pairwise cache
    rw [← List.take_append_drop d (pruneSorted cache)] at hpw
    have hle := (List.pairwise_append.mp hpw).2.2 _ hpair _ hp'
    by_cases hkk : kv' = kv
    · have hnds := pruneSorted_keys_nodup hnd
      rw [← List.take_append_drop d (pruneSorted cache), List.map_append] at hnds
      exact (List.nodup_append.mp hnds).2.2
        (List.mem_map.mpr ⟨_, hpair, rfl⟩)
        (List.mem_map.mpr ⟨p', hp', by rw [← hkveq, hkk]⟩)
    · have hlt' := hmax kv' hkv' hkk
      rw [← hkveq] at hle
      exact absurd hle (not_le.mpr hlt')

/-! ## Lemmas about `cacheSet` -/

theorem cacheSet_mem (c : OllamaTitleCache) (k : String) (e : OllamaTitleCacheEntry) :
    (k, e) ∈ cacheSet c k e := by
  unfold cacheSet
  split
  · rename_i h
    rcases List.mem_map.mp h with ⟨kv, hkv, hk⟩
    exact List.mem_map.mpr ⟨kv, hkv, by simp [hk]⟩
  · exact List.mem_append.mpr (Or.inr (by simp))

theorem cacheSet_mem_elim {c : OllamaTitleCache} {k : String}
    {e : OllamaTitleCacheEntry} {kv : String × OllamaTitleCacheEntry}
    (h : kv ∈ cacheSet c k e) :
    kv = (k, e) ∨ (kv ∈ c ∧ kv.1 ≠ k) := by
  unfold cacheSet at h
  split at h
  · rcases List.mem_map.mp h with ⟨kv', hkv', heq⟩
    by_cases hk : kv'.1 = k
    · left
      rw [← heq]
      simp [hk]
    · right
      rw [← heq]
      simp only [if_neg hk]
      exact ⟨hkv', hk⟩
  · rename_i hnotin
    rcases List.mem_append.mp h with h | h
    · right
      refine ⟨h, ?_⟩
      intro hke
      exact hnotin (hke ▸ List.mem_map_of_mem Prod.fst h)
    · left
      simpa using h

theorem cacheSet_keys_nodup {c : OllamaTitleCache} (k : String)
    (e : OllamaTitleCacheEntry) (hnd : (c.map Prod.fst).Nodup) :
    ((cacheSet c k e).map Prod.fst).Nodup := by
  unfold cacheSet
  split
  · have heq : (c.map (fun kv => if kv.1 = k then (k, e) else kv)).map Prod.fst =
        c.map Prod.fst := by
      rw [List.map_map]
      apply List.map_congr_left
      intro kv _
      by_cases hk : kv.1 = k <;> simp [hk]
    rw [heq]
    exact hnd
  · rename_i hnotin
    rw [List.map_append]
    refine List.Nodup.append hnd (by simp) ?_
    intro a ha hb
    simp only [List.map_cons, List.map_nil, List.mem_singleton] at hb
    subst hb
    exact hnotin ha

/-- The entry count after an active prune with a positive integral bound
`m < |cache|` is exactly `m`. -/
theorem prune_length_eq {cache : OllamaTitleCache} {m : ℕ}
    (hnd : (cache.map Prod.fst).Nodup) (hm : 0 < m) (hlt : m < cache.length) :
    (pruneOllamaTitleCache cache (some (JSNum.fin (m : ℚ)))).length = m := by
  have hdel := pruneToDelete_length (m := m) hnd hlt
  have hne : pruneToDelete cache (JSNum.fin (m : ℚ)) ≠ [] := by
    intro h
    rw [h] at hdel
    simp only [List.length_nil] at hdel
    omega
  rw [prune_active (by exact_mod_cast hm) (by exact_mod_cast hlt) hne,
    length_filter_not_mem cache _ hnd (pruneToDelete_keys_nodup _ hnd)
      (pruneToDelete_keys_subset _ hnd),
    List.length_map, hdel]
  omega

/-! ## Sample data for the witnesses -/

/-! ## Claims C1, C2, C3 and C9 -/

/-- C1: for every cache (carrying the unique-key invariant of a JavaScript
object) and every positive integer `maxEntries`, the pruned cache has at
most `maxEntries` entries, and exactly `maxEntries` of them when the input
has more than `maxEntries` entries. -/
theorem claim_C1 (cache : OllamaTitleCache) (m : ℕ)
    (hnd : (cache.map Prod.fst).Nodup) (hm : 0 < m) :
    (pruneOllamaTitleCache cache (some (JSNum.fin (m : ℚ)))).length ≤ m ∧
    (m < cache.length →
      (pruneOllamaTitleCache cache (some (JSNum.fin (m : ℚ)))).length = m) := by
  rcases le_or_lt cache.length m with hle | hlt
  · rw [prune_small cache (m : ℚ) (by exact_mod_cast hle)]
    exact ⟨hle, fun h => by omega⟩
  · rw [prune_length_eq hnd hm hlt]
    exact ⟨le_refl m, fun _ => rfl⟩

/-- Witness for C1 at a concrete two-entry cache with `maxEntries = 1`. -/
theorem claim_C1_witness :
    (pruneOllamaTitleCache sampleCache (some (JSNum.fin ((1 : ℕ) : ℚ)))).length ≤ 1 ∧
    (1 < sampleCache.length →
      (pruneOllamaTitleCache sampleCache (some (JSNum.fin ((1 : ℕ) : ℚ)))).length = 1) :=
  claim_C1 sampleCache 1 (by decide) (by decide)

/-- Counterexample to C2 as stated: in `c2cache`, entry `"a"` has a
`lastUsed` value (−1) yet is evicted by `prune` with `maxEntries = 1`,
while entry `"b"`, which has no `lastUsed`, is retained — a missing
`lastUsed` sorts as `0`, i.e. after any negative `lastUsed`, so it is not
evicted first. -/
theorem claim_C2_counterexample :
    pruneOllamaTitleCache c2cache (some (JSNum.fin 1)) =
      [("b", ⟨JSNum.fin 1, "t", none⟩)] ∧
    (⟨JSNum.fin 1, "t", some (JSNum.fin (-1))⟩ : OllamaTitleCacheEntry).lastUsed ≠
      none := by
  constructor
  · decide
  · decide

/-- C2 (amended): (1) on a cache whose entries all carry pairwise-distinct
(finite) `lastUsed` values, an active prune keeps exactly `maxEntries`
entries, every kept entry is an input entry, and every kept entry has a
strictly larger effective `lastUsed` than every evicted entry; (2) an entry
missing `lastUsed` is evicted before any entry whose `lastUsed` is a
positive number (rather than before any entry that has one, which the
counterexample refutes for negative values). -/
theorem claim_C2 :
    (∀ (cache : OllamaTitleCache) (m : ℕ),
      (cache.map Prod.fst).Nodup →
      0 < m → m < cache.length →
      (∀ kv ∈ cache, ∃ q : ℚ, kv.2.lastUsed = some (JSNum.fin q)) →
      (∀ kv ∈ cache, ∀ kv' ∈ cache, kv ≠ kv' → kv.2.lastUsed ≠ kv'.2.lastUsed) →
      (pruneOllamaTitleCache cache (some (JSNum.fin (m : ℚ)))).length = m ∧
      (∀ kv ∈ pruneOllamaTitleCache cache (some (JSNum.fin (m : ℚ))), kv ∈ cache) ∧
      (∀ kv ∈ pruneOllamaTitleCache cache (some (JSNum.fin (m : ℚ))),
        ∀ kv' ∈ cache,
          kv' ∉ pruneOllamaTitleCache cache (some (JSNum.fin (m : ℚ))) →
          effOf kv'.2 < effOf kv.2)) ∧
    (∀ (cache : OllamaTitleCache) (mE : Option JSNum)
        (a b : String × OllamaTitleCacheEntry) (qb : ℚ),
      (cache.map Prod.fst).Nodup →
      a ∈ cache → b ∈ cache →
      a.2.lastUsed = none →
      b.2.lastUsed = some (JSNum.fin qb) →
      0 < qb →
      b ∉ pruneOllamaTitleCache cache mE →
      a ∉ pruneOllamaTitleCache cache mE) := by
  constructor
  · intro cache m hnd hm hlt hall hdist
    have hdeff : ∀ kv ∈ cache, ∀ kv' ∈ cache, kv ≠ kv' → effOf kv.2 ≠ effOf kv'.2 := by
      intro kv hkv kv' hkv' hne heq
      obtain ⟨q1, hq1⟩ := hall kv hkv
      obtain ⟨q2, hq2⟩ := hall kv' hkv'
      have e1 : effOf kv.2 = q1 := by simp [effOf, effLastUsed, hq1]
      have e2 : effOf kv'.2 = q2 := by simp [effOf, effLastUsed, hq2]
      apply hdist kv hkv kv' hkv' hne
      rw [hq1, hq2, show q1 = q2 from by rw [← e1, ← e2, heq]]
    refine ⟨prune_length_eq hnd hm hlt, fun kv hkv => prune_subset _ _ kv hkv, ?_⟩
    intro kv hkv kv' hkv' hke
    have hkvc := prune_subset _ _ kv hkv
    have hne : kv' ≠ kv := fun h => hke (h ▸ hkv)
    rcases lt_trichotomy (effOf kv'.2) (effOf kv.2) with h | h | h
    · exact h
    · exact absurd h (hdeff kv' hkv' kv hkvc hne)
    · exact absurd hkv (evict_mono hnd _ hkvc hkv' h hke)
  · intro cache mE a b qb hnd ha hb haU hbU hqb hbev
    have heffa : effOf a.2 = 0 := by simp [effOf, effLastUsed, haU]
    have heffb : effOf b.2 = qb := by simp [effOf, effLastUsed, hbU]
    exact evict_mono hnd mE ha hb (by rw [heffa, heffb]; exact hqb) hbev

/-- Witness for both parts of the amended C2 at concrete caches. -/
theorem claim_C2_witness :
    ((pruneOllamaTitleCache sampleCache (some (JSNum.fin ((1 : ℕ) : ℚ)))).length = 1 ∧
      (∀ kv ∈ pruneOllamaTitleCache sampleCache (some (JSNum.fin ((1 : ℕ) : ℚ))),
        kv ∈ sampleCache) ∧
      (∀ kv ∈ pruneOllamaTitleCache sampleCache (some (JSNum.fin ((1 : ℕ) : ℚ))),
        ∀ kv' ∈ sampleCache,
          kv' ∉ pruneOllamaTitleCache sampleCache (some (JSNum.fin ((1 : ℕ) : ℚ))) →
          effOf kv'.2 < effOf kv.2)) ∧
    ("a", (⟨JSNum.fin 1, "t", none⟩ : OllamaTitleCacheEntry)) ∉
      pruneOllamaTitleCache c2cache3 (some (JSNum.fin 1)) :=
  ⟨claim_C2.1 sampleCache 1 (by decide) (by decide) (by decide)
      (by
        intro kv hkv
        simp only [sampleCache, List.mem_cons, List.not_mem_nil, or_false] at hkv
        rcases hkv with h | h <;> subst h
        · exact ⟨10, rfl⟩
        · exact ⟨20, rfl⟩)
      (by decide),
   claim_C2.2 c2cache3 (some (JSNum.fin 1))
      ("a", ⟨JSNum.fin 1, "t", none⟩) ("b", ⟨JSNum.fin 1, "t", some (JSNum.fin 5)⟩) 5
      (by decide) (by decide) (by decide) rfl rfl (by norm_num) (by decide)⟩

/-- Counterexample to C3 as stated: upserting key `"b"` with timestamp
`now = 0` into a one-entry cache whose other entry has `lastUsed = 100`,
with `maxEntries = 1`, evicts the freshly upserted key itself, so the
result does not map `"b"` at all. -/
theorem claim_C3_counterexample :
    cacheGet? (upsertOllamaTitleCacheEntry
        [("a", ⟨JSNum.fin 0, "t", some (JSNum.fin 100)⟩)]
        "b" (JSNum.fin 0) "t" (some (JSNum.fin 1)) (JSNum.fin 0)) "b" = none := by
  decide

/-- C3 (amended): the upserted key maps to exactly
`{mtime := M, title := T, lastUsed := now}` in the result — for every
`maxEntries` — provided `now` is strictly greater than the effective
`lastUsed` of every other entry of the cache (in particular whenever `now`
is fresher than every stored timestamp, the normal use). -/
theorem claim_C3 (cache : OllamaTitleCache) (key : String) (M : JSNum) (T : String)
    (mE : Option JSNum) (qN : ℚ)
    (hnd : (cache.map Prod.fst).Nodup)
    (hfresh : ∀ kv ∈ cache, kv.1 ≠ key → effOf kv.2 < qN) :
    cacheGet? (upsertOllamaTitleCacheEntry cache key M T mE (JSNum.fin qN)) key =
      some ⟨M, T, some (JSNum.fin qN)⟩ := by
  have hnd' := cacheSet_keys_nodup key ⟨M, T, some (JSNum.fin qN)⟩ hnd
  have hke := cacheSet_mem cache key ⟨M, T, some (JSNum.fin qN)⟩
  have hmax : ∀ kv' ∈ cacheSet cache key ⟨M, T, some (JSNum.fin qN)⟩,
      kv' ≠ (key, (⟨M, T, some (JSNum.fin qN)⟩ : OllamaTitleCacheEntry)) →
      effOf kv'.2 < effOf (⟨M, T, some (JSNum.fin qN)⟩ : OllamaTitleCacheEntry) := by
    intro kv' hkv' hne
    rcases cacheSet_mem_elim hkv' with h | ⟨hmem, hkey⟩
    · exact absurd h hne
    · exact hfresh kv' hmem hkey
  have hsurv := strict_max_survives hnd' mE hke hmax
  have hnd'' := prune_keys_nodup mE hnd'
  exact cacheGet?_of_mem hnd'' hsurv

/-- Witness for the amended C3: a fresh timestamp strictly above the other
entry's `lastUsed` keeps the upserted key with its exact record. -/
theorem claim_C3_witness :
    cacheGet? (upsertOllamaTitleCacheEntry sampleCache "c" (JSNum.fin 2) "C"
        (some (JSNum.fin 1)) (JSNum.fin 100)) "c" =
      some ⟨JSNum.fin 2, "C", some (JSNum.fin 100)⟩ :=
  claim_C3 sampleCache "c" (JSNum.fin 2) "C" (some (JSNum.fin 1)) 100
    (by decide) (by decide)

/-- C9: the cache operations are pure functions in this model, so in-place
mutation of the input cannot occur by construction; the observable content
of the claim is proved: `prune` returns the input mapping itself (equality
standing in for "same reference") when `maxEntries` is absent, zero or
negative, and when the entry count is within the bound; and every entry the
prune does retain is exactly the corresponding input entry. -/
theorem claim_C9 (cache : OllamaTitleCache) :
    pruneOllamaTitleCache cache none = cache ∧
    (∀ q : ℚ, q ≤ 0 → pruneOllamaTitleCache cache (some (JSNum.fin q)) = cache) ∧
    (∀ q : ℚ, (cache.length : ℚ) ≤ q →
      pruneOllamaTitleCache cache (some (JSNum.fin q)) = cache) ∧
    (∀ mE : Option JSNum, ∀ kv ∈ pruneOllamaTitleCache cache mE, kv ∈ cache) :=
  ⟨prune_none cache, fun q hq => prune_nonpos cache q hq,
   fun q hq => prune_small cache q hq,
   fun mE kv h => prune_subset cache mE kv h⟩

/-- Witness for C9 at a concrete cache, with zero, negative and ample
bounds, plus a retained entry of an active prune. -/
theorem claim_C9_witness :
    pruneOllamaTitleCache sampleCache none = sampleCache ∧
    pruneOllamaTitleCache sampleCache (some (JSNum.fin 0)) = sampleCache ∧
    pruneOllamaTitleCache sampleCache (some (JSNum.fin (-3))) = sampleCache ∧
    pruneOllamaTitleCache sampleCache (some (JSNum.fin 2)) = sampleCache ∧
    ("b", entryB) ∈ sampleCache :=
  ⟨(claim_C9 sampleCache).1,
   (claim_C9 sampleCache).2.1 0 (by norm_num),
   (claim_C9 sampleCache).2.1 (-3) (by norm_num),
   (claim_C9 sampleCache).2.2.1 2 (by decide),
   (claim_C9 sampleCache).2.2.2 (some (JSNum.fin 1)) ("b", entryB) (by decide)⟩

/-! ## Claims C5 and C6: the sanitiser invariant and its idempotence -/

theorem lastUsedOf_valid (raw : JVal) :
    lastUsedOf raw = none ∨ ∃ q : ℚ, lastUsedOf raw = some (JSNum.fin q) := by
  unfold lastUsedOf
  split
  · exact Or.inr ⟨_, rfl⟩
  · exact Or.inl rfl

theorem sanitizeCacheEntry_valid {raw : JVal} {e : OllamaTitleCacheEntry}
    (h : sanitizeCacheEntry raw = some e) : ValidEntry e := by
  unfold sanitizeCacheEntry at h
  split at h
  · exact absurd h (by simp)
  split at h
  · rename_i t _
    split at h
    · exact absurd h (by simp)
    split at h
    · exact absurd h (by simp)
    rename_i htitle hmtime
    rcases Option.some.inj h with rfl
    have hb : (!(mtimeOf raw).isFinite || (mtimeOf raw).ltZero) = false :=
      Bool.eq_false_iff.mpr hmtime
    rcases Bool.or_eq_false_iff.mp hb with ⟨h1, h2⟩
    refine ⟨htitle, ?_, h2, lastUsedOf_valid raw⟩
    simpa using h1
  · exact absurd h (by simp)

theorem sanitizeFold_valid (entries : List (String × JVal)) :
    ∀ acc : OllamaTitleCache, (∀ kv ∈ acc, ValidEntry kv.2) →
    ∀ kv ∈ entries.foldl
      (fun out kv =>
        match sanitizeCacheEntry kv.2 with
        | some e => cacheSet out kv.1 e
        | none => out) acc, ValidEntry kv.2 := by
  induction entries with
  | nil => intro acc hacc kv h; exact hacc kv h
  | cons p rest ih =>
    intro acc hacc kv h
    rw [List.foldl_cons] at h
    rcases hstep : sanitizeCacheEntry p.2 with _ | e
    · rw [hstep] at h
      exact ih acc hacc kv h
    · rw [hstep] at h
      refine ih _ ?_ kv h
      intro kv' hkv'
      rcases cacheSet_mem_elim hkv' with he | ⟨hm, _⟩
      · rw [he]
        exact sanitizeCacheEntry_valid hstep
      · exact hacc kv' hm

theorem sanitizeFold_nodup (entries : List (String × JVal)) :
    ∀ acc : OllamaTitleCache, (acc.map Prod.fst).Nodup →
    ((entries.foldl
      (fun out kv =>
        match sanitizeCacheEntry kv.2 with
        | some e => cacheSet out kv.1 e
        | none => out) acc).map Prod.fst).Nodup := by
  induction entries with
  | nil => intro acc hacc; exact hacc
  | cons p rest ih =>
    intro acc hacc
    rw [List.foldl_cons]
    rcases hstep : sanitizeCacheEntry p.2 with _ | e
    · exact ih acc hacc
    · exact ih _ (cacheSet_keys_nodup p.1 e hacc)

theorem sanitize_valid (value : JVal) :
    ∀ kv ∈ sanitizeOllamaTitleCache value, ValidEntry kv.2 := by
  intro kv h
  unfold sanitizeOllamaTitleCache at h
  split at h
  · cases h
  · exact sanitizeFold_valid _ [] (by intro kv h; cases h) kv h

theorem sanitize_keys_nodup (value : JVal) :
    ((sanitizeOllamaTitleCache value).map Prod.fst).Nodup := by
  unfold sanitizeOllamaTitleCache
  split
  · simp
  · exact sanitizeFold_nodup _ [] (by simp)

/-- Counterexample to C5 as stated: `sanitizeOllamaTitleCache` performs no
key validation whatsoever, so the empty-string key survives with its valid
entry, refuting "every key present in the result is a non-empty string". -/
theorem claim_C5_counterexample :
    (sanitizeOllamaTitleCache c5raw).map Prod.fst = [""] := by decide

/-- C5 (amended): every entry stored by `sanitizeOllamaTitleCache` has
passed validation — its title is a string that is non-empty after
trimming, its mtime is a finite number that is not negative, and its
`lastUsed` is carried through only when it is a finite number, otherwise
omitted. (Keys, however, are carried through without any validation: the
counterexample shows the empty-string key can appear.) -/
theorem claim_C5 (value : JVal) :
    ∀ kv ∈ sanitizeOllamaTitleCache value,
      jsTrim kv.2.title.data ≠ [] ∧
      kv.2.mtime.isFinite = true ∧
      kv.2.mtime.ltZero = false ∧
      (kv.2.lastUsed = none ∨ ∃ q : ℚ, kv.2.lastUsed = some (JSNum.fin q)) :=
  fun kv h => sanitize_valid value kv h

/-- Witness for the amended C5 at a concrete raw map. -/
theorem claim_C5_witness :
    jsTrim ("ok", (⟨JSNum.fin 123, "Hello", none⟩ :
        OllamaTitleCacheEntry)).2.title.data ≠ [] ∧
    ("ok", (⟨JSNum.fin 123, "Hello", none⟩ :
        OllamaTitleCacheEntry)).2.mtime.isFinite = true ∧
    ("ok", (⟨JSNum.fin 123, "Hello", none⟩ :
        OllamaTitleCacheEntry)).2.mtime.ltZero = false ∧
    (("ok", (⟨JSNum.fin 123, "Hello", none⟩ :
        OllamaTitleCacheEntry)).2.lastUsed = none ∨
      ∃ q : ℚ, ("ok", (⟨JSNum.fin 123, "Hello", none⟩ :
        OllamaTitleCacheEntry)).2.lastUsed = some (JSNum.fin q)) :=
  claim_C5 c5wraw ("ok", ⟨JSNum.fin 123, "Hello", none⟩) (by decide)

theorem dedupFields_aux (fs : List (String × JVal)) :
    ∀ acc : List (String × JVal), (((acc ++ fs).map Prod.fst)).Nodup →
    fs.foldl (fun acc kv => setField acc kv.1 kv.2) acc = acc ++ fs := by
  induction fs with
  | nil => intro acc _; simp
  | cons p rest ih =>
    intro acc hnd
    rw [List.foldl_cons]
    have hnotin : p.1 ∉ acc.map Prod.fst := by
      intro hmem
      rw [List.map_append] at hnd
      exact (List.nodup_append.mp hnd).2.2 hmem (by simp)
    have hset : setField acc p.1 p.2 = acc ++ [p] := by
      unfold setField
      rw [if_neg hnotin]
    rw [hset, ih (acc ++ [p]) (by simpa using hnd)]
    simp

theorem dedupFields_eq_self {fs : List (String × JVal)}
    (hnd : (fs.map Prod.fst).Nodup) : dedupFields fs = fs := by
  have := dedupFields_aux fs [] (by simpa using hnd)
  simpa [dedupFields] using this

theorem entries_cacheToJVal {c : OllamaTitleCache}
    (hnd : (c.map Prod.fst).Nodup) :
    (cacheToJVal c).entries = c.map (fun kv => (kv.1, entryToJVal kv.2)) := by
  show dedupFields _ = _
  apply dedupFields_eq_self
  rw [List.map_map]
  exact hnd

theorem sanitizeCacheEntry_entryToJVal {e : OllamaTitleCacheEntry}
    (he : ValidEntry e) : sanitizeCacheEntry (entryToJVal e) = some e := by
  obtain ⟨htitle, hfin, hneg, hlast⟩ := he
  have hentries : (entryToJVal e).entries =
      [("mtime", JVal.vnum e.mtime), ("title", JVal.vstr e.title),
        ("lastUsed", match e.lastUsed with
          | some n => JVal.vnum n
          | none => JVal.vundef)] := by
    apply dedupFields_eq_self
    simp
  have htitleF : (entryToJVal e).getField "title" = JVal.vstr e.title := by
    simp [JVal.getField, hentries, List.find?]
  have hmtimeF : (entryToJVal e).getField "mtime" = JVal.vnum e.mtime := by
    simp [JVal.getField, hentries, List.find?]
  have hlastF : (entryToJVal e).getField "lastUsed" =
      (match e.lastUsed with
        | some n => JVal.vnum n
        | none => JVal.vundef) := by
    simp [JVal.getField, hentries, List.find?]
  have hmt : mtimeOf (entryToJVal e) = e.mtime := by
    unfold mtimeOf
    rw [hmtimeF]
  have hlu : lastUsedOf (entryToJVal e) = e.lastUsed := by
    unfold lastUsedOf
    rw [hlastF]
    rcases hlast with h | ⟨q, h⟩ <;> rw [h]
  simp only [sanitizeCacheEntry, htitleF, hmt, hlu]
  rw [if_neg (by simp [entryToJVal, JVal.truthy, JVal.isObjectType]),
    if_neg htitle, if_neg (by simp [hfin, hneg])]

theorem sanitizeFold_rebuild (c : OllamaTitleCache) :
    ∀ acc : OllamaTitleCache,
    (∀ kv ∈ c, ValidEntry kv.2) →
    ((acc ++ c).map Prod.fst).Nodup →
    (c.map (fun kv => (kv.1, entryToJVal kv.2))).foldl
      (fun out kv =>
        match sanitizeCacheEntry kv.2 with
        | some e => cacheSet out kv.1 e
        | none => out) acc = acc ++ c := by
  induction c with
  | nil => intro acc _ _; simp
  | cons kv rest ih =>
    intro acc hval hnd
    rw [List.map_cons, List.foldl_cons]
    simp only [sanitizeCacheEntry_entryToJVal (hval kv (by simp))]
    have hnotin : kv.1 ∉ acc.map Prod.fst := by
      intro hmem
      rw [List.map_append] at hnd
      exact (List.nodup_append.mp hnd).2.2 hmem (by simp)
    have hset : cacheSet acc kv.1 kv.2 = acc ++ [kv] := by
      unfold cacheSet
      rw [if_neg hnotin]
    rw [hset, ih (acc ++ [kv]) (fun kv' h => hval kv' (by simp [h])) (by simpa using hnd)]
    simp

/-- C6: `sanitizeOllamaTitleCache` is idempotent — re-running it on the
plain-map view of its own output returns the same map. -/
theorem claim_C6 (x : JVal) :
    sanitizeOllamaTitleCache (cacheToJVal (sanitizeOllamaTitleCache x)) =
      sanitizeOllamaTitleCache x := by
  have hval := sanitize_valid x
  have hnd := sanitize_keys_nodup x
  conv_lhs => rw [sanitizeOllamaTitleCache]
  rw [if_neg (by simp [cacheToJVal, JVal.truthy, JVal.isObjectType]),
    entries_cacheToJVal hnd,
    sanitizeFold_rebuild _ [] hval (by simpa using hnd)]
  simp

/-! ## Claim C7: `stripYamlFrontmatter` -/

theorem splitLines_ne_nil (l : List Char) : splitLines l ≠ [] := by
  unfold splitLines
  split
  · simp
  · simp
  · simp
  · split <;> simp

theorem linesAfterFence_none {ls : List (List Char)}
    (h : ∀ l ∈ ls, jsTrim l ≠ fenceLine) : linesAfterFence ls = none := by
  induction ls with
  | nil => rfl
  | cons l rest ih =>
    unfold linesAfterFence
    rw [if_neg (h l (by simp))]
    exact ih (fun l' hl' => h l' (by simp [hl']))

theorem linesAfterFence_first {ls : List (List Char)} :
    ∀ i : ℕ, i < ls.length → jsTrim (ls.getD i []) = fenceLine →
    (∀ j < i, jsTrim (ls.getD j []) ≠ fenceLine) →
    linesAfterFence ls = some (ls.drop (i + 1)) := by
  induction ls with
  | nil => intro i hi; exact absurd hi (by simp)
  | cons l rest ih =>
    intro i hi hfence hbefore
    match i with
    | 0 =>
      unfold linesAfterFence
      rw [if_pos (by simpa using hfence)]
      rfl
    | k + 1 =>
      unfold linesAfterFence
      rw [if_neg (by simpa using hbefore 0 (Nat.succ_pos k))]
      exact ih k (by simpa using hi) (by simpa using hfence)
        (fun j hj => by simpa using hbefore (j + 1) (by omega))

/-- Counterexample to C7 as stated: the first line of this text is `" ---"`,
which is not exactly the fence marker, so the claim predicts the input is
returned unchanged — but the source trims each line before comparing, so it
strips the block. -/
theorem claim_C7_counterexample :
    jsTrim (splitLines " ---\na\n---\nX".data).headI = fenceLine ∧
    (splitLines " ---\na\n---\nX".data).headI ≠ fenceLine ∧
    stripYamlFrontmatter " ---\na\n---\nX".data ≠ " ---\na\n---\nX".data ∧
    stripYamlFrontmatter " ---\na\n---\nX".data = "X".data := by
  refine ⟨by decide, by decide, by decide, by decide⟩

/-- C7 (amended): `stripYamlFrontmatter` returns its input unchanged when
the first line does not trim to `---` (rather than "is not exactly `---`"),
or fewer than 3 lines exist, or no later line trims to `---`; otherwise it
returns exactly the lines strictly after the first line (past the first)
that trims to `---`, joined by `"\n"`. The concrete example of the claim
holds. -/
theorem claim_C7 :
    (∀ text : List Char,
      ((splitLines text).length < 3 → stripYamlFrontmatter text = text) ∧
      (jsTrim (splitLines text).headI ≠ fenceLine →
        stripYamlFrontmatter text = text) ∧
      ((∀ l ∈ (splitLines text).tail, jsTrim l ≠ fenceLine) →
        stripYamlFrontmatter text = text) ∧
      (∀ i : ℕ, 3 ≤ (splitLines text).length →
        jsTrim (splitLines text).headI = fenceLine →
        i < (splitLines text).tail.length →
        jsTrim ((splitLines text).tail.getD i []) = fenceLine →
        (∀ j < i, jsTrim ((splitLines text).tail.getD j []) ≠ fenceLine) →
        stripYamlFrontmatter text =
          List.intercalate ['\n'] ((splitLines text).tail.drop (i + 1)))) ∧
    stripYamlFrontmatter "---\ntitle: hello\ntags: [a]\n---\n# Heading\nContent".data =
      "# Heading\nContent".data := by
  constructor
  · intro text
    by_cases htext : text = []
    · subst htext
      refine ⟨fun _ => rfl, fun _ => rfl, fun _ => rfl, ?_⟩
      intro i hlen
      simp [splitLines] at hlen
    · obtain ⟨l₀, rest, hsplit⟩ := List.exists_cons_of_ne_nil (splitLines_ne_nil text)
      have hstrip : stripYamlFrontmatter text =
          (if (l₀ :: rest).length < 3 ∨ jsTrim l₀ ≠ fenceLine then text
           else match linesAfterFence rest with
             | some tail => List.intercalate ['\n'] tail
             | none => text) := by
        unfold stripYamlFrontmatter
        rw [if_neg htext, hsplit]
      refine ⟨?_, ?_, ?_, ?_⟩
      · intro hlen
        rw [hstrip, if_pos (Or.inl (by rw [← hsplit]; exact hlen))]
      · intro hne
        rw [hsplit] at hne
        rw [hstrip, if_pos (Or.inr (by simpa using hne))]
      · intro hnone
        rw [hsplit] at hnone
        simp only [List.tail_cons] at hnone
        rw [hstrip]
        split
        · rfl
        · rw [linesAfterFence_none hnone]
      · intro i hlen hfirst hi hfence hbefore
        rw [hsplit] at hlen hfirst hi hfence hbefore ⊢
        simp only [List.headI, List.tail_cons] at hfirst hi hfence hbefore
        rw [hstrip, if_neg (by push_neg; exact ⟨by omega, by simpa using hfirst⟩),
          linesAfterFence_first i hi hfence hbefore]
        simp
  · decide

/-- Witness for the amended C7: the "fewer than 3 lines" branch and the
closing-fence branch, each at a concrete text. -/
theorem claim_C7_witness :
    stripYamlFrontmatter "ab".data = "ab".data ∧
    stripYamlFrontmatter "---\nt\n---\nX".data =
      List.intercalate ['\n'] ((splitLines "---\nt\n---\nX".data).tail.drop 2) :=
  ⟨(claim_C7.1 "ab".data).1 (by decide),
   (claim_C7.1 "---\nt\n---\nX".data).2.2.2 1 (by decide) (by decide) (by decide)
     (by decide) (by decide)⟩

/-! ## Claim C4: `parseDailyTitleParts` is all-or-nothing -/

/-- C4: `parseDailyTitleParts` returns `none` exactly when the input is not
a truthy object, or its `keywords` field is not an array, or its
`description` field is not a string, or fewer than 3 keywords survive
word-sanitisation, or the sanitised description is empty; otherwise it
returns exactly the first 3 surviving keywords in source order with the
sanitised description. In particular both of the claim's concrete inputs
parse to `none`. -/
theorem claim_C4 :
    (∀ (isLN : Char → Bool) (value : JVal),
      parseDailyTitleParts isLN value = none ↔
        (¬ (value.truthy = true ∧ value.isObjectType = true) ∨
         (∀ ks : List JVal, value.getField "keywords" ≠ JVal.varr ks) ∨
         (∀ s : String, value.getField "description" ≠ JVal.vstr s) ∨
         (∃ ks : List JVal, value.getField "keywords" = JVal.varr ks ∧
            (survivingKeywords isLN ks).length < 3) ∨
         (∃ s : String, value.getField "description" = JVal.vstr s ∧
            sanitizeDescription s.data = []))) ∧
    (∀ (isLN : Char → Bool) (value : JVal) (ks : List JVal) (s : String),
      value.truthy = true → value.isObjectType = true →
      value.getField "keywords" = JVal.varr ks →
      value.getField "description" = JVal.vstr s →
      3 ≤ (survivingKeywords isLN ks).length →
      sanitizeDescription s.data ≠ [] →
      parseDailyTitleParts isLN value =
        some ⟨(survivingKeywords isLN ks).take 3, sanitizeDescription s.data⟩) ∧
    (∀ isLN : Char → Bool,
      parseDailyTitleParts isLN
        (JVal.vobj [("keywords", JVal.varr [JVal.vstr "a", JVal.vstr "b"]),
          ("description", JVal.vstr "ok")]) = none) ∧
    (∀ isLN : Char → Bool, parseDailyTitleParts isLN JVal.vnull = none) := by
  have hmain : ∀ (isLN : Char → Bool) (value : JVal),
      (parseDailyTitleParts isLN value = none ↔
        (¬ (value.truthy = true ∧ value.isObjectType = true) ∨
         (∀ ks : List JVal, value.getField "keywords" ≠ JVal.varr ks) ∨
         (∀ s : String, value.getField "description" ≠ JVal.vstr s) ∨
         (∃ ks : List JVal, value.getField "keywords" = JVal.varr ks ∧
            (survivingKeywords isLN ks).length < 3) ∨
         (∃ s : String, value.getField "description" = JVal.vstr s ∧
            sanitizeDescription s.data = []))) := by
    intro isLN value
    unfold parseDailyTitleParts
    by_cases hobj : (value.truthy && value.isObjectType) = true
    · rw [if_neg (by simp [hobj])]
      have hpair : value.truthy = true ∧ value.isObjectType = true := by
        simpa using hobj
      rcases hpair with ⟨ht, ho⟩
      split
      · rename_i ks s heqk heqd
        by_cases hlen : (survivingKeywords isLN ks).length < 3
        · rw [if_pos hlen]
          simp only [true_iff]
          exact Or.inr (Or.inr (Or.inr (Or.inl ⟨ks, heqk, hlen⟩)))
        · rw [if_neg hlen]
          by_cases hdesc : sanitizeDescription s.data = []
          · rw [if_pos hdesc]
            simp only [true_iff]
            exact Or.inr (Or.inr (Or.inr (Or.inr ⟨s, heqd, hdesc⟩)))
          · rw [if_neg hdesc]
            simp only [reduceCtorEq, false_iff]
            push_neg
            refine ⟨⟨ht, ho⟩, ⟨ks, heqk⟩, ⟨s, heqd⟩, ?_, ?_⟩
            · intro ks' heq'
              rw [heqk] at heq'
              cases JVal.varr.inj heq'
              omega
            · intro s' heq'
              rw [heqd] at heq'
              cases JVal.vstr.inj heq'
              exact hdesc
      · rename_i hnotboth
        simp only [true_iff]
        rcases hk : value.getField "keywords" with _ | _ | b | n | s | fs | ks
        all_goals try exact Or.inr (Or.inl (fun ks' h => JVal.noConfusion h))
        rcases hd : value.getField "description" with _ | _ | b' | n' | s' | fs' | ks'
        all_goals try exact Or.inr (Or.inr (Or.inl (fun s' h => JVal.noConfusion h)))
        exact (hnotboth ks s' hk hd).elim
    · have hfalse : (value.truthy && value.isObjectType) = false :=
        Bool.eq_false_iff.mpr hobj
      rw [if_pos (by simp [hfalse])]
      simp only [true_iff]
      exact Or.inl (fun h => hobj (by rw [h.1, h.2]; rfl))
  refine ⟨hmain, ?_, ?_, ?_⟩
  · intro isLN value ks s ht ho heqk heqd hlen hdesc
    unfold parseDailyTitleParts
    rw [if_neg (by simp [ht, ho])]
    split
    · rename_i ks' s' heqk' heqd'
      rw [heqk] at heqk'
      cases JVal.varr.inj heqk'
      rw [heqd] at heqd'
      cases JVal.vstr.inj heqd'
      rw [if_neg (by omega), if_neg hdesc]
    · rename_i hnone
      exact (hnone ks s heqk heqd).elim
  · intro isLN
    apply (hmain isLN _).mpr
    refine Or.inr (Or.inr (Or.inr (Or.inl ⟨[JVal.vstr "a", JVal.vstr "b"], rfl, ?_⟩)))
    calc (survivingKeywords isLN [JVal.vstr "a", JVal.vstr "b"]).length
        ≤ ([JVal.vstr "a", JVal.vstr "b"].map (fun k =>
            match k with
            | JVal.vstr s => sanitizeWord isLN s.data
            | _ => ([] : List Char))).length := List.length_filter_le _ _
      _ < 3 := by simp
  · intro isLN
    rfl

/-- Witness for C4: the positive branch of the characterisation at a
concrete parse, with the ASCII letter/digit class. -/
theorem claim_C4_witness :
    parseDailyTitleParts (fun c => c.isAlpha || isAsciiDigit c)
        (JVal.vobj [("keywords", JVal.varr [JVal.vstr "work", JVal.vstr "deep",
          JVal.vstr "plan"]), ("description", JVal.vstr "ok")]) =
      some ⟨(survivingKeywords (fun c => c.isAlpha || isAsciiDigit c)
          [JVal.vstr "work", JVal.vstr "deep", JVal.vstr "plan"]).take 3,
        sanitizeDescription "ok".data⟩ :=
  claim_C4.2.1 (fun c => c.isAlpha || isAsciiDigit c) _
    [JVal.vstr "work", JVal.vstr "deep", JVal.vstr "plan"] "ok"
    (by decide) (by decide) rfl rfl (by decide) (by decide)

/-! ## Shape lemmas for the text sanitisers (claim C8) -/

theorem collapseRuns_cons_cons (p : Char → Bool) (c₁ c₂ : Char) (rest : List Char) :
    collapseRuns p (c₁ :: c₂ :: rest) =
      if p c₁ && p c₂ then collapseRuns p (c₂ :: rest)
      else (if p c₁ then ' ' else c₁) :: collapseRuns p (c₂ :: rest) := rfl

theorem collapseRuns_eq_nil_iff (p : Char → Bool) (l : List Char) :
    collapseRuns p l = [] ↔ l = [] := by
  induction l with
  | nil => simp [collapseRuns]
  | cons c rest ih =>
    cases rest with
    | nil =>
      simp only [collapseRuns]
      split <;> simp
    | cons c₂ rest' =>
      rw [collapseRuns_cons_cons]
      split
      · rw [ih]
        simp
      · simp

theorem collapseRuns_head? (p : Char → Bool) (l : List Char) :
    (collapseRuns p l).head? = l.head?.map (fun c => if p c then ' ' else c) := by
  induction l with
  | nil => rfl
  | cons c rest ih =>
    cases rest with
    | nil =>
      simp only [collapseRuns]
      split <;> simp_all
    | cons c₂ rest' =>
      rw [collapseRuns_cons_cons]
      split
      · rename_i hpp
        have hp : p c = true ∧ p c₂ = true := by simpa using hpp
        rw [ih]
        simp [hp.1, hp.2]
      · simp

theorem collapseRuns_getLast? (p : Char → Bool) (l : List Char) :
    (collapseRuns p l).getLast? = l.getLast?.map (fun c => if p c then ' ' else c) := by
  induction l with
  | nil => rfl
  | cons c rest ih =>
    cases rest with
    | nil =>
      simp only [collapseRuns]
      split <;> simp_all
    | cons c₂ rest' =>
      rw [collapseRuns_cons_cons]
      split
      · rw [ih, List.getLast?_cons_cons]
      · have hne : collapseRuns p (c₂ :: rest') ≠ [] := by
          rw [Ne, collapseRuns_eq_nil_iff]
          simp
        obtain ⟨a, as, ha⟩ := List.exists_cons_of_ne_nil hne
        rw [ha, List.getLast?_cons_cons, ← ha, ih, List.getLast?_cons_cons]

theorem collapseRuns_mem {p : Char → Bool} {l : List Char} {c : Char}
    (h : c ∈ collapseRuns p l) : c = ' ' ∨ (c ∈ l ∧ p c = false) := by
  induction l with
  | nil => cases h
  | cons c₁ rest ih =>
    cases rest with
    | nil =>
      revert h
      simp only [collapseRuns]
      split
      · intro h
        exact Or.inl (by simpa using h)
      · intro h
        rename_i hp
        exact Or.inr ⟨by simpa using h, by simpa [(by simpa using h : c = c₁)] using hp⟩
    | cons c₂ rest' =>
      rw [collapseRuns_cons_cons] at h
      split at h
      · rcases ih h with h' | ⟨hm, hp⟩
        · exact Or.inl h'
        · exact Or.inr ⟨List.mem_cons_of_mem _ hm, hp⟩
      · rcases List.mem_cons.mp h with h' | h'
        · by_cases hp : p c₁ = true
          · exact Or.inl (by simpa [hp] using h')
          · rw [if_neg hp] at h'
            exact Or.inr ⟨h' ▸ List.mem_cons_self _ _, h' ▸ Bool.eq_false_iff.mpr hp⟩
        · rcases ih h' with h'' | ⟨hm, hp⟩
          · exact Or.inl h''
          · exact Or.inr ⟨List.mem_cons_of_mem _ hm, hp⟩

/-- No two adjacent spaces survive whitespace-run collapsing. -/
theorem collapseWs_chain (l : List Char) :
    List.Chain' (fun a b => ¬(a = ' ' ∧ b = ' ')) (collapseRuns isJsSpace l) := by
  induction l with
  | nil => simp [collapseRuns]
  | cons c rest ih =>
    cases rest with
    | nil =>
      simp only [collapseRuns]
      split <;> simp
    | cons c₂ rest' =>
      rw [collapseRuns_cons_cons]
      split
      · exact ih
      · rename_i hpp
        refine List.chain'_cons'.mpr ⟨?_, ih⟩
        intro b hb
        rw [collapseRuns_head?] at hb
        simp only [List.head?_cons, Option.map_some', Option.mem_def,
          Option.some.injEq] at hb
        subst hb
        intro hcon
        by_cases h1 : isJsSpace c = true <;> by_cases h2 : isJsSpace c₂ = true
        · exact hpp (by simp [h1, h2])
        · rw [if_neg h2] at hcon
          exact h2 (by rw [hcon.2]; decide)
        · rw [if_neg h1] at hcon
          exact h1 (by rw [hcon.1]; decide)
        · rw [if_neg h1] at hcon
          exact h1 (by rw [hcon.1]; decide)

theorem dropTrailing_append (p : Char → Bool) (l : List Char) :
    dropTrailing p l ++ (l.reverse.takeWhile p).reverse = l := by
  have h := List.takeWhile_append_dropWhile (p := p) (l := l.reverse)
  calc dropTrailing p l ++ (l.reverse.takeWhile p).reverse
      = (l.reverse.takeWhile p ++ l.reverse.dropWhile p).reverse := by
        rw [List.reverse_append]; rfl
    _ = l.reverse.reverse := by rw [h]
    _ = l := List.reverse_reverse l

theorem dropTrailing_subset {p : Char → Bool} {l : List Char} {c : Char}
    (h : c ∈ dropTrailing p l) : c ∈ l :=
  (dropTrailing_append p l) ▸ List.mem_append_left _ h

theorem dropTrailing_head? {p : Char → Bool} {l : List Char}
    (h : dropTrailing p l ≠ []) : (dropTrailing p l).head? = l.head? := by
  obtain ⟨a, as, ha⟩ := List.exists_cons_of_ne_nil h
  conv_rhs => rw [← dropTrailing_append p l]
  rw [ha]
  rfl

theorem head?_dropWhile_not {p : Char → Bool} {l : List Char} {c : Char}
    (h : (l.dropWhile p).head? = some c) : p c = false := by
  induction l with
  | nil => cases h
  | cons a rest ih =>
    rw [List.dropWhile_cons] at h
    split at h
    · exact ih h
    · rename_i hp
      cases Option.some.inj h
      exact Bool.eq_false_iff.mpr hp

theorem dropTrailing_getLast?_not {p : Char → Bool} {l : List Char} {c : Char}
    (h : (dropTrailing p l).getLast? = some c) : p c = false := by
  rw [List.getLast?_eq_head?_reverse] at h
  unfold dropTrailing at h
  rw [List.reverse_reverse] at h
  exact head?_dropWhile_not h

theorem dropWhile_subset {p : Char → Bool} {l : List Char} {c : Char}
    (h : c ∈ l.dropWhile p) : c ∈ l :=
  (List.dropWhile_sublist p).mem h

theorem jsTrim_subset {l : List Char} {c : Char} (h : c ∈ jsTrim l) : c ∈ l :=
  dropWhile_subset (dropTrailing_subset h)

theorem jsTrim_head?_not_space {l : List Char} {c : Char}
    (h : (jsTrim l).head? = some c) : isJsSpace c = false := by
  unfold jsTrim at h
  have hne : dropTrailing isJsSpace (l.dropWhile isJsSpace) ≠ [] := by
    intro hx
    rw [hx] at h
    cases h
  rw [dropTrailing_head? hne] at h
  exact head?_dropWhile_not h

theorem jsTrim_getLast?_not_space {l : List Char} {c : Char}
    (h : (jsTrim l).getLast? = some c) : isJsSpace c = false :=
  dropTrailing_getLast?_not h

theorem jsTrim_length_le (l : List Char) : (jsTrim l).length ≤ l.length := by
  unfold jsTrim
  have h1 := congrArg List.length (dropTrailing_append isJsSpace (l.dropWhile isJsSpace))
  rw [List.length_append] at h1
  have h2 : (l.dropWhile isJsSpace).length ≤ l.length :=
    (List.dropWhile_sublist _).length_le
  omega

theorem chain_dropWhile {R : Char → Char → Prop} {p : Char → Bool} {l : List Char}
    (h : List.Chain' R l) : List.Chain' R (l.dropWhile p) := by
  induction l with
  | nil => exact h
  | cons a rest ih =>
    rw [List.dropWhile_cons]
    split
    · exact ih (List.chain'_cons'.mp h).2
    · exact h

theorem chain_dropTrailing {R : Char → Char → Prop} {p : Char → Bool} {l : List Char}
    (h : List.Chain' R l) : List.Chain' R (dropTrailing p l) := by
  unfold dropTrailing
  rw [List.chain'_reverse]
  exact chain_dropWhile (by rw [List.chain'_reverse]; exact h)

theorem head?_take {α : Type _} {l : List α} {n : Nat} {c : α}
    (h : (l.take n).head? = some c) : l.head? = some c := by
  cases l with
  | nil => rw [List.take_nil] at h; cases h
  | cons a rest =>
    cases n with
    | zero => cases h
    | succ n => rw [List.take_succ_cons] at h; exact h

theorem chain_take {R : Char → Char → Prop} {l : List Char}
    (h : List.Chain' R l) (n : Nat) : List.Chain' R (l.take n) := by
  induction l generalizing n with
  | nil => rw [List.take_nil]; exact h
  | cons a rest ih =>
    cases n with
    | zero => rw [List.take_zero]; exact List.chain'_nil
    | succ n =>
      rw [List.take_succ_cons]
      refine List.chain'_cons'.mpr ⟨?_, ih (List.chain'_cons'.mp h).2 n⟩
      intro b hb
      exact (List.chain'_cons'.mp h).1 b
        (Option.mem_def.mpr (head?_take (Option.mem_def.mp hb)))

theorem jsTrim_chain {R : Char → Char → Prop} {l : List Char}
    (h : List.Chain' R l) : List.Chain' R (jsTrim l) := by
  unfold jsTrim
  exact chain_dropTrailing (chain_dropWhile h)

theorem head?_takeWhile_some {p : Char → Bool} {l : List Char} {c : Char}
    (h : (l.takeWhile p).head? = some c) : l.head? = some c ∧ p c = true := by
  cases l with
  | nil => cases h
  | cons a rest =>
    rw [List.takeWhile_cons] at h
    split at h
    · rename_i hp
      have hac : a = c := by simpa using h
      subst hac
      exact ⟨rfl, hp⟩
    · cases h

/-- The two branches of `replace(/[.!?]{2,}$/g, ".")`. -/
theorem collapseTrailingPunct_cases (l : List Char) :
    ((l.reverse.takeWhile isTermPunct).length < 2 ∧ collapseTrailingPunct l = l) ∨
    (2 ≤ (l.reverse.takeWhile isTermPunct).length ∧
      collapseTrailingPunct l = dropTrailing isTermPunct l ++ ['.']) := by
  unfold collapseTrailingPunct
  split
  · rename_i h
    exact Or.inr ⟨h, rfl⟩
  · rename_i h
    exact Or.inl ⟨by omega, rfl⟩

theorem mem_takeWhile_prop {p : Char → Bool} {l : List Char} {c : Char}
    (h : c ∈ l.takeWhile p) : p c = true := by
  induction l with
  | nil => cases h
  | cons a rest ih =>
    rw [List.takeWhile_cons] at h
    split at h
    · rename_i hp
      rcases List.mem_cons.mp h with h' | h'
      · exact h' ▸ hp
      · exact ih h'
    · cases h

/-- A sanitized keyword token contains no whitespace character at all. -/
theorem sanitizeWord_no_space (isLN : Char → Bool) (w : List Char) :
    ∀ c ∈ sanitizeWord isLN w, isJsSpace c = false := by
  intro c hc
  unfold sanitizeWord at hc
  have hne := mem_takeWhile_prop hc
  have hc1 : c ∈ sanitizeWordCleaned isLN w := (List.takeWhile_sublist _).mem hc
  rcases collapseRuns_mem hc1 with h | ⟨-, hp⟩
  · rw [h] at hne
    exact absurd hne (by decide)
  · exact hp

/-- A sanitized keyword token starts with a letter/digit-class character. -/
theorem sanitizeWord_head {isLN : Char → Bool}
    (hdisj : ∀ c, isLN c = true → isJsSpace c = false) (w : List Char) :
    ∀ c ∈ (sanitizeWord isLN w).head?, isLN c = true := by
  intro c hc
  rw [Option.mem_def] at hc
  unfold sanitizeWord at hc
  obtain ⟨hX, -⟩ := head?_takeWhile_some hc
  unfold sanitizeWordCleaned at hX
  rw [collapseRuns_head?] at hX
  rcases Option.map_eq_some'.mp hX with ⟨c₀, hc₀, hf⟩
  have hne : dropTrailing (fun c => !(isLN c))
      ((jsTrim (collapseRuns isCrlfTab w)).dropWhile (fun c => !(isLN c))) ≠ [] := by
    intro hx
    rw [hx] at hc₀
    cases hc₀
  rw [dropTrailing_head? hne] at hc₀
  have hLN0 : isLN c₀ = true := by
    have h := head?_dropWhile_not hc₀
    simpa using h
  have hns : isJsSpace c₀ = false := hdisj c₀ hLN0
  rw [← hf, if_neg (by simp [hns])]
  exact hLN0

theorem survivingKeywords_mem {isLN : Char → Bool} {ks : List JVal} {w : List Char}
    (hw : w ∈ survivingKeywords isLN ks) :
    w ≠ [] ∧ ∃ s : String, w = sanitizeWord isLN s.data := by
  have hmem := List.mem_filter.mp hw
  have hwne : w ≠ [] := of_decide_eq_true hmem.2
  obtain ⟨k, -, hwk⟩ := List.mem_map.mp hmem.1
  refine ⟨hwne, ?_⟩
  cases k with
  | vstr s => exact ⟨s, hwk.symm⟩
  | vundef => exact absurd hwk.symm hwne
  | vnull => exact absurd hwk.symm hwne
  | vbool b => exact absurd hwk.symm hwne
  | vnum n => exact absurd hwk.symm hwne
  | vobj fs => exact absurd hwk.symm hwne
  | varr xs => exact absurd hwk.symm hwne

theorem descCollapsed_space {d : List Char} {c : Char} (hc : c ∈ descCollapsed d) :
    isJsSpace c = true → c = ' ' := by
  intro hsp
  rcases collapseRuns_mem hc with h | ⟨-, hp⟩
  · exact h
  · rw [hp] at hsp
    cases hsp

theorem descCapped_space {d : List Char} {c : Char} (hc : c ∈ descCapped d) :
    isJsSpace c = true → c = ' ' := by
  unfold descCapped at hc
  split at hc
  · exact descCollapsed_space (List.take_subset _ _ (jsTrim_subset hc))
  · exact descCollapsed_space hc

theorem descCollapsed_head {d : List Char} {c : Char}
    (hc : (descCollapsed d).head? = some c) : isJsSpace c = false := by
  unfold descCollapsed at hc
  rw [collapseRuns_head?] at hc
  rcases Option.map_eq_some'.mp hc with ⟨c₀, hc₀, hf⟩
  have h0 : isJsSpace c₀ = false := jsTrim_head?_not_space hc₀
  rw [← hf, if_neg (by simp [h0])]
  exact h0

theorem descCapped_head {d : List Char} {c : Char}
    (hc : (descCapped d).head? = some c) : isJsSpace c = false := by
  unfold descCapped at hc
  split at hc
  · exact jsTrim_head?_not_space hc
  · exact descCollapsed_head hc

theorem descCollapsed_last {d : List Char} {c : Char}
    (hc : (descCollapsed d).getLast? = some c) : isJsSpace c = false := by
  unfold descCollapsed at hc
  rw [collapseRuns_getLast?] at hc
  rcases Option.map_eq_some'.mp hc with ⟨c₀, hc₀, hf⟩
  have h0 : isJsSpace c₀ = false := jsTrim_getLast?_not_space hc₀
  rw [← hf, if_neg (by simp [h0])]
  exact h0

theorem descCapped_last {d : List Char} {c : Char}
    (hc : (descCapped d).getLast? = some c) : isJsSpace c = false := by
  unfold descCapped at hc
  split at hc
  · exact jsTrim_getLast?_not_space hc
  · exact descCollapsed_last hc

theorem descCapped_chain (d : List Char) :
    List.Chain' (fun a b => ¬(a = ' ' ∧ b = ' ')) (descCapped d) := by
  unfold descCapped
  split
  · exact jsTrim_chain (chain_take (collapseWs_chain _) _)
  · exact collapseWs_chain _

theorem descCapped_length (d : List Char) : (descCapped d).length ≤ descriptionMax := by
  unfold descCapped
  split
  · have h1 := jsTrim_length_le ((descCollapsed d).take descriptionMax)
    have h2 : ((descCollapsed d).take descriptionMax).length ≤ descriptionMax := by
      rw [List.length_take]
      omega
    omega
  · omega

theorem sanitizeDescription_space {d : List Char} {c : Char}
    (hc : c ∈ sanitizeDescription d) : isJsSpace c = true → c = ' ' := by
  unfold sanitizeDescription at hc
  rcases collapseTrailingPunct_cases (descCapped d) with ⟨-, heq⟩ | ⟨-, heq⟩ <;>
    rw [heq] at hc
  · exact descCapped_space hc
  · rcases List.mem_append.mp hc with h | h
    · exact descCapped_space (dropTrailing_subset h)
    · intro hsp
      have hcd : c = '.' := by simpa using h
      rw [hcd] at hsp
      exact absurd hsp (by decide)

theorem sanitizeDescription_head {d : List Char} {c : Char}
    (hc : (sanitizeDescription d).head? = some c) : isJsSpace c = false := by
  unfold sanitizeDescription at hc
  rcases collapseTrailingPunct_cases (descCapped d) with ⟨-, heq⟩ | ⟨-, heq⟩ <;>
    rw [heq] at hc
  · exact descCapped_head hc
  · cases hpre : dropTrailing isTermPunct (descCapped d) with
    | nil =>
      rw [hpre] at hc
      have hcd : c = '.' := by
        have h0 := hc
        simp at h0
        exact h0.symm
      rw [hcd]
      decide
    | cons a as =>
      rw [hpre] at hc
      have hac : a = c := by simpa using hc
      have hne : dropTrailing isTermPunct (descCapped d) ≠ [] := by
        rw [hpre]
        simp
      have h2 : (dropTrailing isTermPunct (descCapped d)).head? = some a := by
        rw [hpre]
        rfl
      rw [dropTrailing_head? hne] at h2
      exact hac ▸ descCapped_head h2

theorem sanitizeDescription_last {d : List Char} {c : Char}
    (hc : (sanitizeDescription d).getLast? = some c) : isJsSpace c = false := by
  unfold sanitizeDescription at hc
  rcases collapseTrailingPunct_cases (descCapped d) with ⟨-, heq⟩ | ⟨-, heq⟩ <;>
    rw [heq] at hc
  · exact descCapped_last hc
  · rw [List.getLast?_concat] at hc
    have hcd : c = '.' := by
      have h0 := hc
      simp at h0
      exact h0.symm
    rw [hcd]
    decide

theorem sanitizeDescription_chain (d : List Char) :
    List.Chain' (fun a b => ¬(a = ' ' ∧ b = ' ')) (sanitizeDescription d) := by
  unfold sanitizeDescription
  rcases collapseTrailingPunct_cases (descCapped d) with ⟨-, heq⟩ | ⟨-, heq⟩ <;>
    rw [heq]
  · exact descCapped_chain d
  · apply List.Chain'.append
    · exact chain_dropTrailing (descCapped_chain d)
    · simp
    · intro x hx y hy
      have hyd : y = '.' := by
        have h0 := hy
        simp at h0
        exact h0.symm
      rw [hyd]
      intro hcon
      exact absurd hcon.2 (by decide)

theorem sanitizeDescription_length (d : List Char) :
    (sanitizeDescription d).length ≤ descriptionMax := by
  unfold sanitizeDescription
  rcases collapseTrailingPunct_cases (descCapped d) with ⟨-, heq⟩ | ⟨hrun, heq⟩ <;>
    rw [heq]
  · exact descCapped_length d
  · have hsplit := congrArg List.length (dropTrailing_append isTermPunct (descCapped d))
    rw [List.length_append, List.length_reverse] at hsplit
    have hcap := descCapped_length d
    rw [List.length_append]
    simp only [List.length_singleton]
    omega

theorem sanitizeDescription_lastTwo {d : List Char} {a b : Char} {t : List Char}
    (hrev : (sanitizeDescription d).reverse = a :: b :: t) :
    ¬(isTermPunct a = true ∧ isTermPunct b = true) := by
  unfold sanitizeDescription at hrev
  rcases collapseTrailingPunct_cases (descCapped d) with ⟨hrun, heq⟩ | ⟨-, heq⟩
  · rw [heq] at hrev
    intro hcon
    rw [hrev, List.takeWhile_cons, if_pos hcon.1, List.takeWhile_cons, if_pos hcon.2]
      at hrun
    simp only [List.length_cons] at hrun
    omega
  · rw [heq, List.reverse_append] at hrev
    have h1 : ('.' :: (dropTrailing isTermPunct (descCapped d)).reverse) = a :: b :: t := by
      simpa using hrev
    injection h1 with h1a h1b
    have hbl : (dropTrailing isTermPunct (descCapped d)).getLast? = some b := by
      rw [List.getLast?_eq_head?_reverse, h1b]
      rfl
    have hb := dropTrailing_getLast?_not hbl
    intro hcon
    rw [hcon.2] at hb
    exact absurd hb (by decide)

theorem parse_some_shape {isLN : Char → Bool} {value : JVal} {parts : DailyTitleParts}
    (h : parseDailyTitleParts isLN value = some parts) :
    ∃ ks : List JVal, ∃ s : String,
      value.getField "keywords" = JVal.varr ks ∧
      value.getField "description" = JVal.vstr s ∧
      3 ≤ (survivingKeywords isLN ks).length ∧
      sanitizeDescription s.data ≠ [] ∧
      parts = ⟨(survivingKeywords isLN ks).take 3, sanitizeDescription s.data⟩ := by
  unfold parseDailyTitleParts at h
  split at h
  · cases h
  · split at h
    · rename_i ks s hk hd
      split at h
      · cases h
      · split at h
        · cases h
        · rename_i hlen hne
          exact ⟨ks, s, hk, hd, by omega, hne, (Option.some.inj h).symm⟩
    · cases h

/-- C8 counterexample: with keywords `["a, b", "cc", "dd"]` the parse succeeds
and the first keyword is sanitized to `"a,"`, whose last character `,` is not
in the letter/digit class — keywords can keep trailing punctuation. -/
theorem claim_C8_counterexample :
    parseDailyTitleParts asciiLN
        (JVal.vobj [("keywords",
            JVal.varr [JVal.vstr "a, b", JVal.vstr "cc", JVal.vstr "dd"]),
          ("description", JVal.vstr "ok")]) =
      some ⟨[['a', ','], ['c', 'c'], ['d', 'd']], ['o', 'k']⟩ ∧
    ['a', ','].getLast? = some ',' ∧ asciiLN ',' = false := by
  refine ⟨by decide, by decide, by decide⟩

set_option maxHeartbeats 1000000 in
/-- C8 (corrected): in every successful result of `parseDailyTitleParts`
there are exactly 3 keywords, each a non-empty token with no embedded
whitespace whose FIRST character is in the letter/digit class (a trailing
punctuation character can survive, because the token is cut at the first
space only after edge-stripping); and the description is single-line
(every whitespace character in it is a plain space), trimmed (no leading
or trailing space), whitespace-collapsed (no two adjacent spaces), of at
most 120 characters, and does not end in two or more of the terminal
punctuation marks `.`, `!`, `?`. -/
theorem claim_C8 (isLN : Char → Bool) (value : JVal) (parts : DailyTitleParts)
    (hdisj : ∀ c, isLN c = true → isJsSpace c = false)
    (h : parseDailyTitleParts isLN value = some parts) :
    (parts.keywords.length = 3 ∧
      ∀ w ∈ parts.keywords, w ≠ [] ∧ (∀ c ∈ w, isJsSpace c = false) ∧
        (∀ c ∈ w.head?, isLN c = true)) ∧
    ((∀ c ∈ parts.description, isJsSpace c = true → c = ' ') ∧
      (∀ c ∈ parts.description.head?, isJsSpace c = false) ∧
      (∀ c ∈ parts.description.getLast?, isJsSpace c = false) ∧
      List.Chain' (fun a b => ¬(a = ' ' ∧ b = ' ')) parts.description ∧
      parts.description.length ≤ 120 ∧
      (∀ a b t, parts.description.reverse = a :: b :: t →
        ¬(isTermPunct a = true ∧ isTermPunct b = true))) := by
  obtain ⟨ks, sd, hk, hd, hlen, hne, hparts⟩ := parse_some_shape h
  subst hparts
  constructor
  · constructor
    · show ((survivingKeywords isLN ks).take 3).length = 3
      rw [List.length_take]
      omega
    · intro w hw
      have hw2 : w ∈ survivingKeywords isLN ks := List.take_subset _ _ hw
      obtain ⟨hwne, s2, hws⟩ := survivingKeywords_mem hw2
      subst hws
      exact ⟨hwne, sanitizeWord_no_space isLN s2.data, sanitizeWord_head hdisj s2.data⟩
  · refine ⟨?_, ?_, ?_, ?_, ?_, ?_⟩
    · intro c hc
      exact sanitizeDescription_space hc
    · intro c hc
      exact sanitizeDescription_head (Option.mem_def.mp hc)
    · intro c hc
      exact sanitizeDescription_last (Option.mem_def.mp hc)
    · exact sanitizeDescription_chain sd.data
    · exact sanitizeDescription_length sd.data
    · intro a b t hrev
      exact sanitizeDescription_lastTwo hrev

/-- The corrected C8 statement holds at a concrete parse. -/
theorem claim_C8_witness :
    (w8parts.keywords.length = 3 ∧
      ∀ w ∈ w8parts.keywords, w ≠ [] ∧ (∀ c ∈ w, isJsSpace c = false) ∧
        (∀ c ∈ w.head?, (fun c => !(isJsSpace c)) c = true)) ∧
    ((∀ c ∈ w8parts.description, isJsSpace c = true → c = ' ') ∧
      (∀ c ∈ w8parts.description.head?, isJsSpace c = false) ∧
      (∀ c ∈ w8parts.description.getLast?, isJsSpace c = false) ∧
      List.Chain' (fun a b => ¬(a = ' ' ∧ b = ' ')) w8parts.description ∧
      w8parts.description.length ≤ 120 ∧
      (∀ a b t, w8parts.description.reverse = a :: b :: t →
        ¬(isTermPunct a = true ∧ isTermPunct b = true))) :=
  claim_C8 (fun c => !(isJsSpace c)) w8value w8parts
    (fun c hc => by simpa using hc) (by decide)

/-! ## Lemmas for the color-tag map (claim C10) -/

theorem tagsGet?_append_new {t : ListItemColorTags} {k v : String}
    (h : k ∉ t.map Prod.fst) : tagsGet? (t ++ [(k, v)]) k = some v := by
  induction t with
  | nil => simp [tagsGet?]
  | cons a t' ih =>
    have ha : a.1 ≠ k := by
      intro he
      exact h (he ▸ List.mem_map_of_mem Prod.fst (List.mem_cons_self a t'))
    rw [List.cons_append]
    show (if a.1 = k then some a.2 else tagsGet? (t' ++ [(k, v)]) k) = some v
    rw [if_neg ha]
    exact ih (fun hm => h (List.mem_cons_of_mem _ hm))

theorem tagsGet?_overwrite (t : ListItemColorTags) (k v : String) :
    tagsGet? (t.map (fun kv => if kv.1 = k then (k, v) else kv)) k =
      if k ∈ t.map Prod.fst then some v else none := by
  induction t with
  | nil => simp [tagsGet?]
  | cons a t' ih =>
    by_cases ha : a.1 = k
    · rw [List.map_cons, if_pos ha]
      show (if k = k then some v else _) = _
      rw [if_pos rfl, if_pos (by rw [List.map_cons]; exact ha ▸ List.mem_cons_self _ _)]
    · rw [List.map_cons, if_neg ha]
      show (if a.1 = k then some a.2 else _) = _
      rw [if_neg ha, ih, List.map_cons]
      by_cases hk : k ∈ t'.map Prod.fst
      · rw [if_pos hk, if_pos (List.mem_cons_of_mem _ hk)]
      · rw [if_neg hk, if_neg ?_]
        intro hm
        rcases List.mem_cons.mp hm with h' | h'
        · exact ha h'.symm
        · exact hk h'

theorem tagsGet?_set_self (t : ListItemColorTags) (k v : String) :
    tagsGet? (tagsSet t k v) k = some v := by
  unfold tagsSet
  split
  · rename_i hmem
    rw [tagsGet?_overwrite, if_pos hmem]
  · rename_i hmem
    exact tagsGet?_append_new hmem

theorem tagsGet?_append_other {t : ListItemColorTags} {k k' v : String} (h : k' ≠ k) :
    tagsGet? (t ++ [(k, v)]) k' = tagsGet? t k' := by
  induction t with
  | nil =>
    show (if k = k' then some v else none) = none
    rw [if_neg (fun he => h he.symm)]
  | cons a t' ih =>
    rw [List.cons_append]
    show (if a.1 = k' then some a.2 else _) = (if a.1 = k' then some a.2 else _)
    by_cases ha : a.1 = k'
    · rw [if_pos ha, if_pos ha]
    · rw [if_neg ha, if_neg ha, ih]

theorem tagsGet?_overwrite_other {t : ListItemColorTags} {k k' v : String} (h : k' ≠ k) :
    tagsGet? (t.map (fun kv => if kv.1 = k then (k, v) else kv)) k' = tagsGet? t k' := by
  induction t with
  | nil => rfl
  | cons a t' ih =>
    rw [List.map_cons]
    by_cases ha : a.1 = k
    · rw [if_pos ha]
      show (if k = k' then some v else _) = (if a.1 = k' then some a.2 else _)
      rw [if_neg (fun he => h he.symm), if_neg (fun he => h (ha ▸ he).symm), ih]
    · rw [if_neg ha]
      show (if a.1 = k' then some a.2 else _) = (if a.1 = k' then some a.2 else _)
      by_cases ha' : a.1 = k'
      · rw [if_pos ha', if_pos ha']
      · rw [if_neg ha', if_neg ha', ih]

theorem tagsGet?_set_other {t : ListItemColorTags} {k k' v : String} (h : k' ≠ k) :
    tagsGet? (tagsSet t k v) k' = tagsGet? t k' := by
  unfold tagsSet
  split
  · exact tagsGet?_overwrite_other h
  · exact tagsGet?_append_other h

theorem tagsGet?_mem {t : ListItemColorTags} {k v : String}
    (h : tagsGet? t k = some v) : k ∈ t.map Prod.fst := by
  induction t with
  | nil => cases h
  | cons a t' ih =>
    rw [List.map_cons]
    by_cases ha : a.1 = k
    · exact ha ▸ List.mem_cons_self _ _
    · refine List.mem_cons_of_mem _ (ih ?_)
      have h' : (if a.1 = k then some a.2 else tagsGet? t' k) = some v := h
      rw [if_neg ha] at h'
      exact h'

theorem map_overwrite_keys (t : ListItemColorTags) (k v : String) :
    (t.map (fun kv => if kv.1 = k then (k, v) else kv)).map Prod.fst =
      t.map Prod.fst := by
  induction t with
  | nil => rfl
  | cons a t' ih =>
    rw [List.map_cons, List.map_cons, List.map_cons]
    by_cases ha : a.1 = k
    · rw [if_pos ha, ih]
      show k :: _ = a.1 :: _
      rw [ha]
    · rw [if_neg ha, ih]

theorem tagsSet_presence {t : ListItemColorTags} {k k' v : String}
    (h : k' ∈ t.map Prod.fst) : k' ∈ (tagsSet t k v).map Prod.fst := by
  unfold tagsSet
  split
  · rw [map_overwrite_keys]
    exact h
  · rw [List.map_append]
    exact List.mem_append_left _ h

theorem colorTagStep_hit {out : ListItemColorTags} {k1 rv : String}
    (hvalid : (matchesDayKey (jsTrim k1.data) || matchesFileKey (jsTrim k1.data)) = true)
    (hcol : normalizeListItemColor rv.data ≠ []) :
    colorTagStep out (k1, JVal.vstr rv) =
      tagsSet out (String.mk (jsTrim k1.data))
        (String.mk (normalizeListItemColor rv.data)) := by
  have hne : String.mk (jsTrim k1.data) ≠ "" := by
    intro he
    have hnil : jsTrim k1.data = [] := congrArg String.data he
    rw [hnil] at hvalid
    exact absurd hvalid (by decide)
  unfold colorTagStep
  rw [if_neg hne, if_neg (by simp [hvalid])]
  show (if normalizeListItemColor rv.data = [] then out else _) = _
  rw [if_neg hcol]

theorem colorTagStep_miss {out : ListItemColorTags} {kv : String × JVal} {key : String}
    (hmiss : ¬ HitsKey kv key) :
    tagsGet? (colorTagStep out kv) key = tagsGet? out key := by
  unfold colorTagStep
  split
  · rfl
  · split
    · rfl
    · rename_i h1 h2
      cases hkv2 : kv.2 with
      | vstr rv =>
        show tagsGet? (if normalizeListItemColor rv.data = [] then out
            else tagsSet out (String.mk (jsTrim kv.1.data))
              (String.mk (normalizeListItemColor rv.data))) key =
          tagsGet? out key
        split
        · rfl
        · rename_i hcol
          have hvalid : (matchesDayKey (jsTrim kv.1.data) ||
              matchesFileKey (jsTrim kv.1.data)) = true := by
            cases hx : (matchesDayKey (jsTrim kv.1.data) ||
                matchesFileKey (jsTrim kv.1.data))
            · exact absurd (by rw [hx]; rfl) h2
            · rfl
          refine tagsGet?_set_other ?_
          intro hkk
          exact hmiss ⟨hkk.symm, hvalid, rv, hkv2, hcol⟩
      | vundef => rfl
      | vnull => rfl
      | vbool b => rfl
      | vnum n => rfl
      | vobj fs => rfl
      | varr xs => rfl

theorem colorTagStep_presence {out : ListItemColorTags} {kv : String × JVal} {key : String}
    (h : key ∈ out.map Prod.fst) : key ∈ (colorTagStep out kv).map Prod.fst := by
  unfold colorTagStep
  split
  · exact h
  · split
    · exact h
    · cases hkv2 : kv.2 with
      | vstr rv =>
        show key ∈ (if normalizeListItemColor rv.data = [] then out
            else tagsSet out (String.mk (jsTrim kv.1.data))
              (String.mk (normalizeListItemColor rv.data))).map Prod.fst
        split
        · exact h
        · exact tagsSet_presence h
      | vundef => exact h
      | vnull => exact h
      | vbool b => exact h
      | vnum n => exact h
      | vobj fs => exact h
      | varr xs => exact h

theorem foldl_colorTagStep_miss {suf : List (String × JVal)} {key : String}
    (h : ∀ kv ∈ suf, ¬ HitsKey kv key) (out : ListItemColorTags) :
    tagsGet? (suf.foldl colorTagStep out) key = tagsGet? out key := by
  induction suf generalizing out with
  | nil => rfl
  | cons a t ih =>
    rw [List.foldl_cons, ih (fun kv hkv => h kv (List.mem_cons_of_mem a hkv))]
    exact colorTagStep_miss (h a (List.mem_cons_self a t))

theorem foldl_colorTagStep_presence {suf : List (String × JVal)} {key : String}
    (out : ListItemColorTags) (h : key ∈ out.map Prod.fst) :
    key ∈ (suf.foldl colorTagStep out).map Prod.fst := by
  induction suf generalizing out with
  | nil => exact h
  | cons a t ih =>
    rw [List.foldl_cons]
    exact ih _ (colorTagStep_presence h)

/-- C10 counterexample: the raw key `"  day:2025-12-15  "` matches the day
grammar only after trimming and carries the valid color `"#abc"`
(normalizing to `"#aabbcc"`), yet the output does not contain that entry:
a second raw key trimming to the same `"day:2025-12-15"` overwrites the
value with `"#ddeeff"`. -/
theorem claim_C10_counterexample :
    matchesDayKey (jsTrim "  day:2025-12-15  ".data) = true ∧
    matchesDayKey "  day:2025-12-15  ".data = false ∧
    normalizeListItemColor "#abc".data = "#aabbcc".data ∧
    sanitizeListItemColorTags (JVal.vobj
        [("  day:2025-12-15  ", JVal.vstr "#abc"),
          ("day:2025-12-15", JVal.vstr "#ddeeff")]) =
      [("day:2025-12-15", "#ddeeff")] ∧
    tagsGet? (sanitizeListItemColorTags (JVal.vobj
          [("  day:2025-12-15  ", JVal.vstr "#abc"),
            ("day:2025-12-15", JVal.vstr "#ddeeff")]))
        (String.mk (jsTrim "  day:2025-12-15  ".data)) ≠ some "#aabbcc" := by
  refine ⟨by decide, by decide, by decide, by decide, by decide⟩

/-- C10 (corrected): `sanitizeListItemColorTags` trims each raw key before
validating it and stores the entry under the trimmed key: whenever the
object holds an entry whose trimmed key matches one of the two grammars
and whose value normalizes to a non-empty color, the trimmed key is
present in the output; and if additionally no later entry of the object
writes the same trimmed key, the output maps the trimmed key to exactly
this entry's normalized color (without that proviso a colliding later raw
key — e.g. the same key minus the padding — overwrites the value). -/
theorem claim_C10 (fs pre suf : List (String × JVal)) (rawKey rawVal : String)
    (hsplit : (JVal.vobj fs).entries = pre ++ (rawKey, JVal.vstr rawVal) :: suf)
    (hvalid : (matchesDayKey (jsTrim rawKey.data) ||
      matchesFileKey (jsTrim rawKey.data)) = true)
    (hcol : normalizeListItemColor rawVal.data ≠ []) :
    String.mk (jsTrim rawKey.data) ∈
      (sanitizeListItemColorTags (JVal.vobj fs)).map Prod.fst ∧
    ((∀ kv ∈ suf, ¬ HitsKey kv (String.mk (jsTrim rawKey.data))) →
      tagsGet? (sanitizeListItemColorTags (JVal.vobj fs))
          (String.mk (jsTrim rawKey.data)) =
        some (String.mk (normalizeListItemColor rawVal.data))) := by
  have hsan : sanitizeListItemColorTags (JVal.vobj fs) =
      (JVal.vobj fs).entries.foldl colorTagStep [] := rfl
  have hmid : ∀ out : ListItemColorTags,
      tagsGet? (colorTagStep out (rawKey, JVal.vstr rawVal))
          (String.mk (jsTrim rawKey.data)) =
        some (String.mk (normalizeListItemColor rawVal.data)) := by
    intro out
    rw [colorTagStep_hit hvalid hcol]
    exact tagsGet?_set_self _ _ _
  rw [hsan, hsplit, List.foldl_append, List.foldl_cons]
  constructor
  · apply foldl_colorTagStep_presence
    exact tagsGet?_mem (hmid _)
  · intro hlast
    rw [foldl_colorTagStep_miss hlast]
    exact hmid _

/-- The corrected C10 statement holds at a concrete one-entry object. -/
theorem claim_C10_witness :
    String.mk (jsTrim "  day:2025-12-15  ".data) ∈
      (sanitizeListItemColorTags (JVal.vobj
        [("  day:2025-12-15  ", JVal.vstr "#abc")])).map Prod.fst ∧
    ((∀ kv ∈ ([] : List (String × JVal)),
        ¬ HitsKey kv (String.mk (jsTrim "  day:2025-12-15  ".data))) →
      tagsGet? (sanitizeListItemColorTags (JVal.vobj
            [("  day:2025-12-15  ", JVal.vstr "#abc")]))
          (String.mk (jsTrim "  day:2025-12-15  ".data)) =
        some (String.mk (normalizeListItemColor "#abc".data))) :=
  claim_C10 [("  day:2025-12-15  ", JVal.vstr "#abc")] [] []
    "  day:2025-12-15  " "#abc" rfl (by decide) (by decide)

end CalendarDailyNotes
